import Mathlib

/-!
Shallow embedding of the `perfme` measurement scheduling and statistics
engine (`src/MeasurementEngine.ts`), together with theorems checking the
natural-language specification against it.

Modelling conventions:
* JavaScript numbers are embedded as `ℚ` (exact rational arithmetic);
  `Math.round` is Mathlib's `round` (both are `⌊x + 1/2⌋`).
* The opaque registered target functions and data generators are embedded
  as identifiers (`fnId`, `genId`) interpreted by an environment `Env`;
  JavaScript reference equality (`===`) on generators becomes equality of
  identifiers.  Generators are interpreted by `genSem : id → size → Option`
  (deterministic in their argument, `none` models a thrown exception);
  target functions are interpreted by `fnSem : id → callIndex → arg →
  Option`, where the call index lets a model function behave differently
  on successive invocations (JS functions may close over mutable state).
* Wall-clock readings (`getTime`) and memory probes (`getMemoryUsage`)
  are oracles indexed by how many calls have been made so far.
* External interference (the observer calling `stop()` / `skipPathKey()`
  while the engine is suspended) can only happen at the engine's yield
  points: the inter-series `setTimeout` delay and the synchronous
  re-entrant `onProgress` callback.  The oracle `actions : tick → List
  EngineAction` says which control calls are performed at each yield
  point.
* `JsMin`/`JsMax` model `Math.min(...xs)` / `Math.max(...xs)` on a
  non-empty argument list; on the empty list JavaScript returns
  `Infinity`/`-Infinity`, which has no `ℚ` counterpart, so the embedding
  returns `0` there and theorems about them carry a non-emptiness
  hypothesis.  Likewise `x / 0` is `0` in `ℚ` where JavaScript produces
  `NaN`/`Infinity`; no theorem below relies on the value of a division
  by zero.
-/

namespace Perfme

/-- Generated synthetic datum (JS values collapsed to `ℚ`). -/
abbrev Datum := ℚ

/-- `Math.min(...xs)`: fold of `min` over a non-empty list (see header). -/
def JsMin : List ℚ → ℚ
  | [] => 0
  | x :: xs => xs.foldl min x

/-- `Math.max(...xs)`: fold of `max` over a non-empty list (see header). -/
def JsMax : List ℚ → ℚ
  | [] => 0
  | x :: xs => xs.foldl max x

/-- `xs.reduce((a, b) => a + b, 0) / xs.length`. -/
def listAvg (xs : List ℚ) : ℚ := xs.sum / xs.length

/-- One entry of a selection pattern (`undefined | string | string[]`). -/
inductive PathFilter where
  /-- `undefined`: matches any value at this level. -/
  | wildcard : PathFilter
  /-- a string: exact match at this level. -/
  | exact (s : String) : PathFilter
  /-- a string array: matches any value from the array. -/
  | anyOf (ss : List String) : PathFilter
deriving DecidableEq, Repr

/-- `matchesPathPattern` (MeasurementEngine.ts:228-251).  The source
checks `pattern.length > path.length` first and then walks the indices of
`pattern`; the index walk is embedded as simultaneous recursion over the
two lists. -/
def matchesPathPattern (path : List String) (pattern : List PathFilter) : Bool :=
  if pattern.length > path.length then false
  else matchLevels path pattern
where
  /-- the `for` loop over the levels of the pattern -/
  matchLevels : List String → List PathFilter → Bool
  | _, [] => true
  | [], _ :: _ => true  -- unreachable under the length guard
  | x :: xs, f :: fs =>
    match f with
    | .wildcard => matchLevels xs fs
    | .exact s => if x = s then matchLevels xs fs else false
    | .anyOf ss => if ss.contains x then matchLevels xs fs else false

/-- A registered function (`RegisteredFunction` in types.ts); the opaque
`fn`/`dataGenerator` closures are embedded as identifiers. -/
structure RegisteredFunction where
  group : String := ""
  subGroup : String := ""
  title : String
  fnId : Nat
  genId : Nat
  isAsync : Bool := false
  path : Option (List String)
deriving DecidableEq, Repr

/-- A custom evaluation (`CustomEvaluation` in types.ts), closures as ids. -/
structure CustomEvaluation where
  customChartId : String
  group : String := ""
  subGroup : String := ""
  title : String
  fnId : Nat
  genId : Nat
  path : Option (List String)
deriving DecidableEq, Repr

/-- Hierarchical test node (`TestNode` in types.ts).  `runMeasurements`
reads only the `type`, `title` and `path` of measure/evaluate nodes (the
closures are taken from the registered lists), so the leaf variants carry
no function fields here. -/
inductive TestNode where
  | describeNode (title : String) (path : List String) (children : List TestNode)
  | measureNode (title : String) (path : List String)
  | evaluateNode (title : String) (path : List String) (customChartId : String)
deriving Repr

/-- Run configuration (`MeasurementConfig` in types.ts). -/
structure MeasurementConfig where
  selectedPaths : Option (List (List PathFilter)) := none
  dataUnitSizes : Option (List Nat) := none
  dataUnitsCount : Option Nat := none
  seriesSize : Option Nat := none
  seriesCount : Option Nat := none
  delay : Option ℚ := none
  forceGC : Option Bool := none
  memoryMeasurementsCount : Option Nat := none
deriving Repr

/-- Process-wide defaults (`MeasureSettings` in types.ts). -/
structure MeasureSettings where
  dataUnitSizes : Option (List Nat) := none
  dataUnitsCount : Option Nat := none
  seriesSize : Option Nat := none
  seriesCount : Option Nat := none
  delay : Option ℚ := none
  forceGC : Option Bool := none
  memoryMeasurementsCount : Option Nat := none
deriving Repr

/-- `MeasurementResult` (types.ts): summary for one (measure leaf, data
size). -/
structure MeasurementResult where
  path : List String
  title : String
  dataSize : Nat
  series : List ℚ
  avg : ℚ
  min : ℚ
  max : ℚ
  opsPerSecond : ℚ
  duration : ℚ
  durationMin : ℚ
  durationMax : ℚ
  memory : Option (List ℚ)
  memoryAvg : Option ℚ
  memoryMin : Option ℚ
  memoryMax : Option ℚ
deriving DecidableEq, Repr

/-- `CustomMeasurementResult` (types.ts). -/
structure CustomMeasurementResult where
  path : List String
  title : String
  dataSize : Nat
  values : List ℚ
  avg : ℚ
  min : ℚ
  max : ℚ
  customChartId : String
deriving DecidableEq, Repr

/-- Payload of one `onProgress` call: exactly one of `result` /
`customResult` is present. -/
inductive ResultPayload where
  | result (r : MeasurementResult)
  | customResult (r : CustomMeasurementResult)
deriving DecidableEq, Repr

/-- One emitted progress event (the argument of `onProgress`). -/
structure ProgressEvent where
  path : List String
  title : String
  dataSize : Nat
  progress : ℤ
  payload : ResultPayload
deriving DecidableEq, Repr

/-! ## Config resolution (MeasurementEngine.ts:376-383) -/

/-- The config values after applying `config.x ?? settings.x ?? default`. -/
structure ResolvedConfig where
  dataUnitSizes : List Nat
  dataUnitsCount : Nat
  seriesSize : Nat
  seriesCount : Nat
  delay : ℚ
  forceGC : Bool
  memoryMeasurementsCount : Option Nat
deriving Repr

/-- Lines 377-383: merge the run configuration over the process defaults. -/
def resolveConfig (config : MeasurementConfig) (settings : MeasureSettings) : ResolvedConfig where
  dataUnitSizes := (config.dataUnitSizes.or settings.dataUnitSizes).getD []
  dataUnitsCount := (config.dataUnitsCount.or settings.dataUnitsCount).getD 100
  seriesSize := (config.seriesSize.or settings.seriesSize).getD 1000
  seriesCount := (config.seriesCount.or settings.seriesCount).getD 10
  delay := (config.delay.or settings.delay).getD 1
  forceGC := (config.forceGC.or settings.forceGC).getD false
  memoryMeasurementsCount := config.memoryMeasurementsCount.or settings.memoryMeasurementsCount

/-! ## Selection filtering (MeasurementEngine.ts:385-403) -/

/-- Whether `config.selectedPaths && config.selectedPaths.length > 0`. -/
def hasSelection (config : MeasurementConfig) : Bool :=
  match config.selectedPaths with
  | none => false
  | some pats => pats.length > 0

/-- Lines 390-396: keep the registered functions whose path matches at
least one selection pattern (functions without a path are dropped when a
selection is active). -/
def filteredFunctionsOf (config : MeasurementConfig)
    (functions : List RegisteredFunction) : List RegisteredFunction :=
  if hasSelection config then
    functions.filter fun f =>
      match f.path with
      | none => false
      | some p => (config.selectedPaths.getD []).any fun pat => matchesPathPattern p pat
  else functions

/-- Lines 397-402: same filter for the custom evaluations. -/
def filteredEvalsOf (config : MeasurementConfig)
    (customEvals : List CustomEvaluation) : List CustomEvaluation :=
  if hasSelection config then
    customEvals.filter fun e =>
      match e.path with
      | none => false
      | some p => (config.selectedPaths.getD []).any fun pat => matchesPathPattern p pat
  else customEvals

/-! ## Hierarchy traversal and plan building (MeasurementEngine.ts:405-519) -/

/-- An entry of `orderedNodes` (lines 409-426). -/
structure OrderedNode where
  isMeasure : Bool  -- the `type: 'measure' | 'evaluate'` tag
  path : List String
  title : String
deriving DecidableEq, Repr

/-- `traverseNode` (lines 412-426): depth-first, children in declaration
order, collecting measure and evaluate nodes. -/
def traverseNode : TestNode → List OrderedNode
  | .measureNode t p => [⟨true, p, t⟩]
  | .evaluateNode t p _ => [⟨false, p, t⟩]
  | .describeNode _ _ children => traverseList children
where
  traverseList : List TestNode → List OrderedNode
  | [] => []
  | n :: ns => traverseNode n ++ traverseList ns

/-- `path.join(' > ')`. -/
def joinPath (p : List String) : String := String.intercalate " > " p

/-- JS `Map.set` on an association list: overwrite the value when the key
is present, otherwise append.  Only `get` is observed afterwards. -/
def mapSet {α : Type} (m : List (String × α)) (k : String) (v : α) : List (String × α) :=
  if m.any (fun e => e.1 = k) then
    m.map fun e => if e.1 = k then (k, v) else e
  else m ++ [(k, v)]

/-- JS `Map.get`. -/
def mapGet {α : Type} (m : List (String × α)) (k : String) : Option α :=
  (m.find? (fun e => e.1 = k)).map (·.2)

/-- `functionByPath` (lines 429-435): keyed by the joined registered
path, for functions whose path is present and non-empty. -/
def buildFunctionByPath (fs : List RegisteredFunction) : List (String × RegisteredFunction) :=
  fs.foldl (fun m f =>
    match f.path with
    | some p => if p.length > 0 then mapSet m (joinPath p) f else m
    | none => m) []

/-- `evalByPath` (lines 437-443). -/
def buildEvalByPath (es : List CustomEvaluation) : List (String × CustomEvaluation) :=
  es.foldl (fun m e =>
    match e.path with
    | some p => if p.length > 0 then mapSet m (joinPath p) e else m
    | none => m) []

/-- The measure/evaluate payload of a `UnifiedItem` (lines 446-453). -/
inductive ItemPayload where
  | measureItem (f : RegisteredFunction)
  | evaluateItem (e : CustomEvaluation)
deriving DecidableEq, Repr

/-- One entry of `unifiedItems`. -/
structure UnifiedItem where
  registrationIndex : Nat
  pathKey : String
  title : String
  payload : ItemPayload
deriving DecidableEq, Repr

/-- The generator identity of an item's registered closure. -/
def UnifiedItem.genIdOf (it : UnifiedItem) : Nat :=
  match it.payload with
  | .measureItem f => f.genId
  | .evaluateItem e => e.genId

/-- The registered (non-null-asserted) path carried into the emitted
event: `func.path!` / `customEval.path!`. -/
def UnifiedItem.itemPath (it : UnifiedItem) : List String :=
  match it.payload with
  | .measureItem f => f.path.getD []
  | .evaluateItem e => e.path.getD []

/-- `node.path.length > 1 ? node.path.slice(0, -1).join(' > ') : node.path[0]`
(lines 465 and 477).  `node.path[0]` of an empty path is JS `undefined`;
that case is unreachable because the by-path lookup cannot succeed for an
empty node path, and is embedded as `""`. -/
def keyPathOf (p : List String) : String :=
  if p.length > 1 then joinPath p.dropLast else p.headD ""

/-- `unifiedItems` (lines 455-487): walk `orderedNodes`, look each node up
in the corresponding by-path map, and assign registration indices to the
hits in order. -/
def buildUnifiedItems (nodes : List OrderedNode)
    (fMap : List (String × RegisteredFunction))
    (eMap : List (String × CustomEvaluation)) : List UnifiedItem :=
  go nodes 0
where
  go : List OrderedNode → Nat → List UnifiedItem
  | [], _ => []
  | n :: ns, idx =>
    if n.isMeasure then
      match mapGet fMap (joinPath n.path) with
      | some f => ⟨idx, keyPathOf n.path, n.title, .measureItem f⟩ :: go ns (idx + 1)
      | none => go ns idx
    else
      match mapGet eMap (joinPath n.path) with
      | some e => ⟨idx, keyPathOf n.path, n.title, .evaluateItem e⟩ :: go ns (idx + 1)
      | none => go ns idx

/-- One step of the grouping fold: push the item onto its key's list,
creating the key (at the end, as JS `Map` insertion does) if absent. -/
def groupStep (m : List (String × List UnifiedItem)) (it : UnifiedItem) :
    List (String × List UnifiedItem) :=
  match mapGet m it.pathKey with
  | some l => mapSet m it.pathKey (l ++ [it])
  | none => m ++ [(it.pathKey, [it])]

/-- `itemsByPathKey` (lines 489-496): group by `pathKey`, preserving both
the order of first key appearance and the order of items within a key. -/
def groupByPathKey (items : List UnifiedItem) : List (String × List UnifiedItem) :=
  items.foldl groupStep []

/-- Stable insertion by ascending `registrationIndex` (strict `<` keeps
equal keys in arrival order, as JS `sort` is stable). -/
def insertByRegIdx (it : UnifiedItem) : List UnifiedItem → List UnifiedItem
  | [] => [it]
  | x :: xs => if x.registrationIndex < it.registrationIndex
      then x :: insertByRegIdx it xs
      else it :: x :: xs

/-- `items.sort((a, b) => a.registrationIndex - b.registrationIndex)`
(lines 498-501), embedded as a stable insertion sort. -/
def sortByRegIdx (items : List UnifiedItem) : List UnifiedItem :=
  items.foldr insertByRegIdx []

/-- The per-key lists after the in-place sort of lines 498-501. -/
def itemsByPathKeyOf (items : List UnifiedItem) : List (String × List UnifiedItem) :=
  (groupByPathKey items).map fun e => (e.1, sortByRegIdx e.2)

/-- `allPathKeys` (lines 503-511): path keys in order of first appearance. -/
def allPathKeysOf (items : List UnifiedItem) : List String :=
  go items []
where
  go : List UnifiedItem → List String → List String
  | [], _ => []
  | it :: its, seen =>
    if it.pathKey ∈ seen then go its seen
    else it.pathKey :: go its (it.pathKey :: seen)

/-- `totalSteps` (lines 513-519). -/
def totalStepsOf (allPathKeys : List String)
    (itemsBy : List (String × List UnifiedItem)) (dataUnitSizesSum : Nat) : Nat :=
  allPathKeys.foldl (fun acc pk =>
    acc + dataUnitSizesSum * ((mapGet itemsBy pk).getD []).length) 0

/-! ## Execution environment and engine state -/

/-- An external control call performed while the engine is suspended:
`engine.stop()` or `engine.skipPathKey(pk)`. -/
inductive EngineAction where
  | stop : EngineAction
  | skipPathKey (pk : String) : EngineAction
deriving DecidableEq, Repr

/-- Interpretation of everything opaque to the engine (see file header). -/
structure Env where
  /-- data generator semantics: `genSem id size` (none = throws). -/
  genSem : Nat → Nat → Option Datum
  /-- target function semantics: `fnSem id callIndex arg`; `arg = none`
  models being called on JS `undefined` (empty dataset); result `none`
  models a thrown exception, `some v` the returned number. -/
  fnSem : Nat → Nat → Option Datum → Option ℚ
  /-- `getTime` oracle, indexed by the number of prior calls. -/
  time : Nat → ℚ
  /-- `getMemoryUsage` oracle, indexed by the number of prior calls. -/
  memUsage : Nat → ℚ
  /-- external control calls at each yield point. -/
  actions : Nat → List EngineAction

/-- Mutable engine/run state threaded through the interpreter.
`stopRequested`/`skippedSubGroups` are the engine fields of lines
215-216; the rest is run-local bookkeeping (`trace` records the
`onProgress` calls, `genLog` the data-generator invocations). -/
structure EngState where
  stopRequested : Bool
  skippedSubGroups : List String
  tick : Nat
  timeIdx : Nat
  memIdx : Nat
  fnCalls : Nat
  genLog : List (Nat × Nat)
  currentStep : Nat
  trace : List ProgressEvent
deriving DecidableEq, Repr

/-- Apply one external control call (`stop`, lines 711-713;
`skipPathKey`, lines 718-720). -/
def applyAction (s : EngState) : EngineAction → EngState
  | .stop => { s with stopRequested := true }
  | .skipPathKey pk =>
      if pk ∈ s.skippedSubGroups then s
      else { s with skippedSubGroups := pk :: s.skippedSubGroups }

/-- A yield point: the scheduled external calls run, then the engine
resumes. -/
def yieldPoint (env : Env) (s : EngState) : EngState :=
  let s' := (env.actions s.tick).foldl applyAction s
  { s' with tick := s.tick + 1 }

/-! ## Samplers (MeasurementEngine.ts:156-212 and the loops of 555-662) -/

/-- The data-generation loop `for i in 0..count: push(gen(dataSize))`
(lines 558-561, 624-628).  Returns `none` when the generator throws;
every attempted invocation is appended to `genLog`. -/
def generateData (env : Env) (genId : Nat) (dataSize : Nat) :
    Nat → EngState → EngState × Option (List Datum)
  | 0, s => (s, some [])
  | n + 1, s =>
    let s1 := { s with genLog := s.genLog ++ [(genId, dataSize)] }
    match env.genSem genId dataSize with
    | none => (s1, none)
    | some d =>
      match generateData env genId dataSize n s1 with
      | (s2, some ds) => (s2, some (d :: ds))
      | (s2, none) => (s2, none)

/-- `data[i % count]` where `count = data.length >>> 0`; `none` is the JS
`undefined` read off an empty array. -/
def dataAt (data : List Datum) (i : Nat) : Option Datum :=
  if data.length = 0 then none else data.get? (i % data.length)

/-- The invocation loop of `measureSeries`(`Async`): `fn(data[i % count])`
for `i` in `0..seriesSize`.  Returns `false` when some invocation throws. -/
def invokeSeries (env : Env) (fnId : Nat) (data : List Datum) :
    Nat → Nat → EngState → EngState × Bool
  | _, 0, s => (s, true)
  | i, n + 1, s =>
    let s1 := { s with fnCalls := s.fnCalls + 1 }
    match env.fnSem fnId s.fnCalls (dataAt data i) with
    | none => (s1, false)
    | some _ => invokeSeries env fnId data (i + 1) n s1

/-- `measureSeries` / `measureSeriesAsync` (lines 156-182): read the
clock, run the invocation loop, read the clock again; the awaited and the
synchronous variant have the same series structure in this embedding.
Returns the duration sample, or `none` when the target function throws. -/
def measureSeriesM (env : Env) (seriesSize : Nat) (data : List Datum) (fnId : Nat)
    (s : EngState) : EngState × Option ℚ :=
  let startTime := env.time s.timeIdx
  let s1 := { s with timeIdx := s.timeIdx + 1 }
  match invokeSeries env fnId data 0 seriesSize s1 with
  | (s2, false) => (s2, none)
  | (s2, true) =>
    let endTime := env.time s2.timeIdx
    (({ s2 with timeIdx := s2.timeIdx + 1 }), some (endTime - startTime))

/-- The series loop of lines 631-645: check the stop flag, (forceGC is a
best-effort no-op capability in this model), measure one series, push the
duration, then `await setTimeout(delay)` — a yield point. -/
def runSeriesLoop (env : Env) (seriesSize : Nat) (data : List Datum) (fnId : Nat) :
    Nat → EngState → List ℚ → EngState × List ℚ × Bool
  | 0, s, acc => (s, acc, true)
  | n + 1, s, acc =>
    if s.stopRequested then (s, acc, true)
    else
      match measureSeriesM env seriesSize data fnId s with
      | (s1, none) => (s1, acc, false)
      | (s1, some d) =>
        let s2 := yieldPoint env s1
        runSeriesLoop env seriesSize data fnId n s2 (acc ++ [d])

/-- `measureSeriesMemory` / `...Async` (lines 184-212): per pass, GC hint,
memory probe, one invocation, memory probe, record `max(0, after-before)`. -/
def measureMemoryLoop (env : Env) (data : List Datum) (fnId : Nat) :
    Nat → Nat → EngState → List ℚ → EngState × Option (List ℚ)
  | _, 0, s, acc => (s, some acc)
  | i, n + 1, s, acc =>
    let startMemory := env.memUsage s.memIdx
    let s1 := { s with memIdx := s.memIdx + 1, fnCalls := s.fnCalls + 1 }
    match env.fnSem fnId s.fnCalls (dataAt data i) with
    | none => (s1, none)
    | some _ =>
      let endMemory := env.memUsage s1.memIdx
      let s2 := { s1 with memIdx := s1.memIdx + 1 }
      measureMemoryLoop env data fnId (i + 1) n s2 (acc ++ [max 0 (endMemory - startMemory)])

/-! ## Statistics reduction (MeasurementEngine.ts:593-607 and 647-690) -/

/-- Lines 647-690: fold the raw duration samples (and optional memory
samples) of one (measure leaf, data size) into a `MeasurementResult`. -/
def computeMeasurementResult (path : List String) (title : String) (dataSize : Nat)
    (durations : List ℚ) (seriesSize : Nat) (memoryUsages : Option (List ℚ)) :
    MeasurementResult :=
  let durationAvg := (durations.sum / durations.length) / (seriesSize : ℚ)
  let durationMin := JsMin durations / (seriesSize : ℚ)
  let durationMax := JsMax durations / (seriesSize : ℚ)
  let opsAvg := 1000 / durationAvg
  let opsMin := 1000 / durationMax
  let opsMax := 1000 / durationMin
  { path := path
    title := title
    dataSize := dataSize
    series := durations.map fun duration => 1000 / duration
    avg := opsAvg
    min := opsMin
    max := opsMax
    opsPerSecond := opsAvg
    duration := durationAvg
    durationMin := durationMin
    durationMax := durationMax
    memory := memoryUsages
    memoryAvg := memoryUsages.map listAvg
    memoryMin := memoryUsages.map JsMin
    memoryMax := memoryUsages.map JsMax }

/-- Lines 593-607: fold the raw evaluate values into a
`CustomMeasurementResult`. -/
def computeCustomResult (path : List String) (title : String) (dataSize : Nat)
    (values : List ℚ) (customChartId : String) : CustomMeasurementResult :=
  { path := path
    title := title
    dataSize := dataSize
    values := values
    avg := listAvg values
    min := JsMin values
    max := JsMax values
    customChartId := customChartId }

/-- Lines 609-617 and 692-701: bump `currentStep` by the data size,
compute the progress percentage, call `onProgress` (appending to the
trace; the observer may re-enter the engine, so the call is a yield
point). -/
def emitEvent (env : Env) (totalSteps : Nat) (path : List String) (title : String)
    (dataSize : Nat) (payload : ResultPayload) (s : EngState) : EngState :=
  let currentStep := s.currentStep + dataSize
  let progress := round (((currentStep : ℚ) / (totalSteps : ℚ)) * 100)
  let ev : ProgressEvent :=
    { path := path, title := title, dataSize := dataSize
      progress := progress, payload := payload }
  yieldPoint env { s with currentStep := currentStep, trace := s.trace ++ [ev] }

/-! ## Item execution (MeasurementEngine.ts:564-703) -/

/-- Lines 578-583 (evaluate, shared data): `fn` over the shared array. -/
def evalValuesShared (env : Env) (fnId : Nat) :
    List Datum → EngState → EngState × Option (List ℚ)
  | [], s => (s, some [])
  | d :: ds, s =>
    let s1 := { s with fnCalls := s.fnCalls + 1 }
    match env.fnSem fnId s.fnCalls (some d) with
    | none => (s1, none)
    | some v =>
      match evalValuesShared env fnId ds s1 with
      | (s2, some vs) => (s2, some (v :: vs))
      | (s2, none) => (s2, none)

/-- Lines 584-591 (evaluate, per-leaf data): generate a datum and apply
`fn`, `dataUnitsCount` times. -/
def evalValuesOwn (env : Env) (fnId genId dataSize : Nat) :
    Nat → EngState → EngState × Option (List ℚ)
  | 0, s => (s, some [])
  | n + 1, s =>
    let s1 := { s with genLog := s.genLog ++ [(genId, dataSize)] }
    match env.genSem genId dataSize with
    | none => (s1, none)
    | some d =>
      let s2 := { s1 with fnCalls := s1.fnCalls + 1 }
      match env.fnSem fnId s1.fnCalls (some d) with
      | none => (s2, none)
      | some v =>
        match evalValuesOwn env fnId genId dataSize n s2 with
        | (s3, some vs) => (s3, some (v :: vs))
        | (s3, none) => (s3, none)

/-- Lines 647-662: the optional memory-measurement phase.  Outer `none`
means the target function threw; `some none` means memory was not
configured; `some (some l)` the recorded samples. -/
def runMemoryPhase (env : Env) (memoryMeasurementsCount : Option Nat)
    (data : List Datum) (fnId : Nat) (s : EngState) :
    EngState × Option (Option (List ℚ)) :=
  match memoryMeasurementsCount with
  | some m =>
    if 0 < m then
      match measureMemoryLoop env data fnId 0 m s [] with
      | (s', none) => (s', none)
      | (s', some l) => (s', some (some l))
    else (s, some none)
  | none => (s, some none)

/-- Lines 576-591: collect the evaluate values, from the shared data
array when present, otherwise generating per leaf. -/
def evalValuesPhase (env : Env) (fnId genId dataSize count : Nat)
    (shared : Option (List Datum)) (s : EngState) : EngState × Option (List ℚ) :=
  match shared with
  | some ds => evalValuesShared env fnId ds s
  | none => evalValuesOwn env fnId genId dataSize count s

/-- One evaluate item (lines 573-618).  Returns `false` when the
generator or the target function throws: in that case no event is
emitted. -/
def runEvaluateItem (env : Env) (rc : ResolvedConfig) (totalSteps : Nat)
    (title : String) (e : CustomEvaluation) (shared : Option (List Datum))
    (dataSize : Nat) (s : EngState) : EngState × Bool :=
  match evalValuesPhase env e.fnId e.genId dataSize rc.dataUnitsCount shared s with
  | (s1, none) => (s1, false)
  | (s1, some values) =>
    let customResult := computeCustomResult (e.path.getD []) title dataSize values e.customChartId
    (emitEvent env totalSteps (e.path.getD []) title dataSize (.customResult customResult) s1, true)

/-- Lines 622-628: use the shared data array if available, otherwise
generate a per-leaf one. -/
def dataPhase (env : Env) (genId dataSize count : Nat)
    (shared : Option (List Datum)) (s : EngState) : EngState × Option (List Datum) :=
  match shared with
  | some ds => (s, some ds)
  | none => generateData env genId dataSize count s

/-- One measure item (lines 619-702): obtain the data array (shared or
per-leaf), run the series loop, the optional memory phase, reduce to a
result, emit.  Returns `false` when something threw; again nothing is
emitted in that case. -/
def runMeasureItem (env : Env) (rc : ResolvedConfig) (totalSteps : Nat)
    (title : String) (f : RegisteredFunction) (shared : Option (List Datum))
    (dataSize : Nat) (s : EngState) : EngState × Bool :=
  match dataPhase env f.genId dataSize rc.dataUnitsCount shared s with
  | (s1, none) => (s1, false)
  | (s1, some dataArray) =>
    match runSeriesLoop env rc.seriesSize dataArray f.fnId rc.seriesCount s1 [] with
    | (s2, _, false) => (s2, false)
    | (s2, durations, true) =>
      match runMemoryPhase env rc.memoryMeasurementsCount dataArray f.fnId s2 with
      | (s3, none) => (s3, false)
      | (s3, some memoryUsages) =>
        let result := computeMeasurementResult (f.path.getD []) title dataSize
          durations rc.seriesSize memoryUsages
        (emitEvent env totalSteps (f.path.getD []) title dataSize (.result result) s3, true)

/-- Dispatch on the item kind (lines 573 and 619). -/
def runItem (env : Env) (rc : ResolvedConfig) (totalSteps : Nat)
    (it : UnifiedItem) (shared : Option (List Datum)) (dataSize : Nat)
    (s : EngState) : EngState × Bool :=
  match it.payload with
  | .evaluateItem e => runEvaluateItem env rc totalSteps it.title e shared dataSize s
  | .measureItem f => runMeasureItem env rc totalSteps it.title f shared dataSize s

/-- The item loop of lines 564-571 at one data size: per item, check the
stop flag, then the skip set, then run the item; throws propagate. -/
def runItems (env : Env) (rc : ResolvedConfig) (totalSteps : Nat) (pk : String)
    (shared : Option (List Datum)) (dataSize : Nat) :
    List UnifiedItem → EngState → EngState × Bool
  | [], s => (s, true)
  | it :: rest, s =>
    if s.stopRequested then (s, true)
    else if pk ∈ s.skippedSubGroups then (s, true)
    else
      match runItem env rc totalSteps it shared dataSize s with
      | (s', true) => runItems env rc totalSteps pk shared dataSize rest s'
      | (s', false) => (s', false)

/-- Lines 555-562: when `share` is set, generate the shared data array
once for the group at this size.  Outer `none` means the generator threw;
`some none` means no sharing (each leaf generates for itself). -/
def sharedDataPhase (env : Env) (genId dataSize count : Nat) (share : Bool)
    (s : EngState) : EngState × Option (Option (List Datum)) :=
  if share then
    match generateData env genId dataSize count s with
    | (s', some ds) => (s', some (some ds))
    | (s', none) => (s', none)
  else (s, some none)

/-- The data-size loop of lines 547-562: per size, check the stop flag,
then the skip set; when `share` is set (all items of the group use the
same generator — `firstDataGenerator` is a function, hence always truthy)
generate the shared data array once, then run the items. -/
def runSizes (env : Env) (rc : ResolvedConfig) (totalSteps : Nat) (pk : String)
    (items : List UnifiedItem) (share : Bool) (firstGenId : Nat) :
    List Nat → EngState → EngState × Bool
  | [], s => (s, true)
  | dataSize :: rest, s =>
    if s.stopRequested then (s, true)
    else if pk ∈ s.skippedSubGroups then (s, true)
    else
      match sharedDataPhase env firstGenId dataSize rc.dataUnitsCount share s with
      | (s1, none) => (s1, false)
      | (s1, some sharedDataArray) =>
        match runItems env rc totalSteps pk sharedDataArray dataSize items s1 with
        | (s2, true) => runSizes env rc totalSteps pk items share firstGenId rest s2
        | (s2, false) => (s2, false)

/-- The group loop of lines 524-705: per path key, check the stop flag,
skip empty groups, check the skip set, detect whether every item of the
group uses the identical data generator, then run the data sizes.
`shareEnabled` is `true` for the engine as written; `false` models the
shared-data optimization being disabled (forcing per-leaf generation),
used to state its observational transparency. -/
def runGroups (env : Env) (rc : ResolvedConfig) (totalSteps : Nat)
    (itemsBy : List (String × List UnifiedItem)) (shareEnabled : Bool) :
    List String → EngState → EngState × Bool
  | [], s => (s, true)
  | pk :: rest, s =>
    if s.stopRequested then (s, true)
    else
      match (mapGet itemsBy pk).getD [] with
      | [] => runGroups env rc totalSteps itemsBy shareEnabled rest s
      | first :: others =>
        if pk ∈ s.skippedSubGroups then runGroups env rc totalSteps itemsBy shareEnabled rest s
        else
          let items := first :: others
          let firstGenId := first.genIdOf
          let allUseSameGenerator := items.all fun it => it.genIdOf = firstGenId
          match runSizes env rc totalSteps pk items (shareEnabled && allUseSameGenerator)
              firstGenId rc.dataUnitSizes s with
          | (s', true) => runGroups env rc totalSteps itemsBy shareEnabled rest s'
          | (s', false) => (s', false)

/-! ## Top-level run (MeasurementEngine.ts:366-706) -/

/-- The engine fields that persist between runs (lines 215-216). -/
structure EngineFlags where
  stopRequested : Bool
  skippedSubGroups : List String
deriving DecidableEq, Repr

/-- Fresh run-local state on top of the persisted engine flags. -/
def initialState (flags : EngineFlags) : EngState :=
  { stopRequested := flags.stopRequested
    skippedSubGroups := flags.skippedSubGroups
    tick := 0, timeIdx := 0, memIdx := 0, fnCalls := 0
    genLog := [], currentStep := 0, trace := [] }

/-- The plan data `runMeasurements` derives before the traversal. -/
def unifiedItemsOf (config : MeasurementConfig) (hierarchy : TestNode)
    (functions : List RegisteredFunction) (customEvals : List CustomEvaluation) :
    List UnifiedItem :=
  buildUnifiedItems (traverseNode hierarchy)
    (buildFunctionByPath (filteredFunctionsOf config functions))
    (buildEvalByPath (filteredEvalsOf config customEvals))

/-- `runMeasurements` (lines 366-706), parametrized additionally by
`shareEnabled` (see `runGroups`); the engine as written is
`shareEnabled = true`. -/
def runMeasurementsWith (shareEnabled : Bool) (env : Env) (config : MeasurementConfig)
    (settings : MeasureSettings) (hierarchy : TestNode)
    (functions : List RegisteredFunction) (customEvals : List CustomEvaluation)
    (flags : EngineFlags) : EngState × Bool :=
  -- lines 370-371: this.stopRequested = false; this.skippedSubGroups.clear()
  let s := { initialState flags with stopRequested := false, skippedSubGroups := [] }
  let rc := resolveConfig config settings
  let unifiedItems := unifiedItemsOf config hierarchy functions customEvals
  let itemsBy := itemsByPathKeyOf unifiedItems
  let allPathKeys := allPathKeysOf unifiedItems
  let dataUnitSizesSum := rc.dataUnitSizes.sum
  let totalSteps := totalStepsOf allPathKeys itemsBy dataUnitSizesSum
  runGroups env rc totalSteps itemsBy shareEnabled allPathKeys s

/-- The engine's `runMeasurements`. -/
def runMeasurements (env : Env) (config : MeasurementConfig)
    (settings : MeasureSettings) (hierarchy : TestNode)
    (functions : List RegisteredFunction) (customEvals : List CustomEvaluation)
    (flags : EngineFlags) : EngState × Bool :=
  runMeasurementsWith true env config settings hierarchy functions customEvals flags

/-- The same plan with the shared-data optimization disabled (every leaf
generates its own data); used to state that sharing is observationally
transparent. -/
def runMeasurementsNoShare (env : Env) (config : MeasurementConfig)
    (settings : MeasureSettings) (hierarchy : TestNode)
    (functions : List RegisteredFunction) (customEvals : List CustomEvaluation)
    (flags : EngineFlags) : EngState × Bool :=
  runMeasurementsWith false env config settings hierarchy functions customEvals flags

/-! ## Shared predicates for the theorems -/

/-- No external interference: the observer performs no `stop`/`skip`
calls at any yield point. -/
def Quiet (env : Env) : Prop := ∀ t, env.actions t = []

/-- No registered closure throws. -/
def TotalEnv (env : Env) : Prop :=
  (∀ g n, (env.genSem g n).isSome) ∧ (∀ f k d, (env.fnSem f k d).isSome)

/-- What one level of a selection pattern accepts (spec §4.1: "match any"
always succeeds, exact-match requires string equality, set-match requires
membership). -/
def filterAccepts (x : String) : PathFilter → Prop
  | .wildcard => True
  | .exact s => x = s
  | .anyOf ss => x ∈ ss

instance (x : String) (f : PathFilter) : Decidable (filterAccepts x f) := by
  cases f <;> simp only [filterAccepts] <;> infer_instance

/-! ## C4: the path matcher -/

theorem matchLevels_iff (P : List PathFilter) (X : List String)
    (h : P.length ≤ X.length) :
    matchesPathPattern.matchLevels X P = true ↔
      ∀ i, i < P.length → filterAccepts (X.getD i "") (P.getD i .wildcard) := by
  induction P generalizing X with
  | nil => simp [matchesPathPattern.matchLevels]
  | cons f fs ih =>
    cases X with
    | nil => simp at h
    | cons x xs =>
      simp only [List.length_cons, Nat.add_le_add_iff_right] at h
      constructor
      · intro hm i hi
        cases i with
        | zero =>
          simp only [List.getD_cons_zero]
          cases f with
          | wildcard => exact trivial
          | exact s =>
            simp only [matchesPathPattern.matchLevels] at hm
            by_cases hx : x = s
            · simpa [filterAccepts] using hx
            · simp [hx] at hm
          | anyOf ss =>
            simp only [matchesPathPattern.matchLevels] at hm
            split at hm
            · next hc => exact List.elem_iff.mp hc
            · simp at hm
        | succ j =>
          have hj : j < fs.length := by simpa using hi
          have tail : matchesPathPattern.matchLevels xs fs = true := by
            cases f with
            | wildcard => exact hm
            | exact s =>
              simp only [matchesPathPattern.matchLevels] at hm
              revert hm; split <;> simp_all
            | anyOf ss =>
              simp only [matchesPathPattern.matchLevels] at hm
              revert hm; split <;> simp_all
          simpa using ((ih xs h).mp tail) j hj
      · intro hall
        have head : filterAccepts x f := by simpa using hall 0 (by simp)
        have tail : matchesPathPattern.matchLevels xs fs = true := by
          refine (ih xs h).mpr ?_
          intro j hj
          simpa using hall (j + 1) (by simpa using hj)
        cases f with
        | wildcard => exact tail
        | exact s =>
          simp only [filterAccepts] at head
          simp [matchesPathPattern.matchLevels, head, tail]
        | anyOf ss =>
          simp only [filterAccepts] at head
          simp [matchesPathPattern.matchLevels, List.elem_iff, head, tail]

/-- C4: `matchesPathPattern(X, P)` is false whenever the pattern has more
entries than the path; true when the pattern is empty; and otherwise true
iff every pattern level accepts the corresponding path segment (wildcard
accepts anything, a string requires equality, an array requires
membership) — a short pattern is a prefix/partial constraint. -/
theorem matchesPathPattern_characterization :
    (∀ (X : List String) (P : List PathFilter),
      P.length > X.length → matchesPathPattern X P = false) ∧
    (∀ X : List String, matchesPathPattern X [] = true) ∧
    (∀ (X : List String) (P : List PathFilter), P.length ≤ X.length →
      (matchesPathPattern X P = true ↔
        ∀ i, i < P.length → filterAccepts (X.getD i "") (P.getD i .wildcard))) := by
  refine ⟨?_, ?_, ?_⟩
  · intro X P h
    simp [matchesPathPattern, h]
  · intro X
    simp [matchesPathPattern, matchesPathPattern.matchLevels]
  · intro X P h
    rw [matchesPathPattern, if_neg (by omega)]
    exact matchLevels_iff P X h

/-- Witness for C4 at concrete inputs. -/
theorem matchesPathPattern_characterization_witness :
    ((2 > 1 ∧ matchesPathPattern ["x"] [.wildcard, .exact "x"] = false) ∧
     matchesPathPattern ["Encoding", "JSON"] [] = true ∧
     (2 ≤ 3 ∧
       (matchesPathPattern ["Encoding", "Binary", "y"] [.wildcard, .exact "Binary"] = true ↔
         ∀ i, i < 2 →
           filterAccepts (["Encoding", "Binary", "y"].getD i "")
             ([PathFilter.wildcard, .exact "Binary"].getD i .wildcard)))) :=
  ⟨⟨by decide,
     matchesPathPattern_characterization.1 ["x"] [.wildcard, .exact "x"] (by decide)⟩,
   matchesPathPattern_characterization.2.1 ["Encoding", "JSON"],
   by decide,
   matchesPathPattern_characterization.2.2 ["Encoding", "Binary", "y"]
     [.wildcard, .exact "Binary"] (by decide)⟩

/-! ## Extremum lemmas for `JsMin` / `JsMax` -/

theorem foldl_min_le_init (xs : List ℚ) (a : ℚ) : xs.foldl min a ≤ a := by
  induction xs generalizing a with
  | nil => exact le_refl a
  | cons x xs ih => exact le_trans (ih (min a x)) (min_le_left a x)

theorem foldl_min_mem (xs : List ℚ) (a : ℚ) :
    xs.foldl min a = a ∨ xs.foldl min a ∈ xs := by
  induction xs generalizing a with
  | nil => exact Or.inl rfl
  | cons x xs ih =>
    rcases ih (min a x) with h | h
    · rcases min_choice a x with hc | hc
      · exact Or.inl (by rw [List.foldl_cons, h, hc])
      · exact Or.inr (by rw [List.foldl_cons, h, hc]; exact List.mem_cons_self x xs)
    · exact Or.inr (List.mem_cons_of_mem x h)

theorem foldl_min_le_mem (xs : List ℚ) (a x : ℚ) (hx : x ∈ xs) :
    xs.foldl min a ≤ x := by
  induction xs generalizing a with
  | nil => cases hx
  | cons y ys ih =>
    rcases List.mem_cons.mp hx with h | h
    · subst h
      exact le_trans (foldl_min_le_init ys (min a x)) (min_le_right a x)
    · exact ih (min a y) h

theorem foldl_max_init_le (xs : List ℚ) (a : ℚ) : a ≤ xs.foldl max a := by
  induction xs generalizing a with
  | nil => exact le_refl a
  | cons x xs ih => exact le_trans (le_max_left a x) (ih (max a x))

theorem foldl_max_mem (xs : List ℚ) (a : ℚ) :
    xs.foldl max a = a ∨ xs.foldl max a ∈ xs := by
  induction xs generalizing a with
  | nil => exact Or.inl rfl
  | cons x xs ih =>
    rcases ih (max a x) with h | h
    · rcases max_choice a x with hc | hc
      · exact Or.inl (by rw [List.foldl_cons, h, hc])
      · exact Or.inr (by rw [List.foldl_cons, h, hc]; exact List.mem_cons_self x xs)
    · exact Or.inr (List.mem_cons_of_mem x h)

theorem foldl_mem_le_max (xs : List ℚ) (a x : ℚ) (hx : x ∈ xs) :
    x ≤ xs.foldl max a := by
  induction xs generalizing a with
  | nil => cases hx
  | cons y ys ih =>
    rcases List.mem_cons.mp hx with h | h
    · subst h
      exact le_trans (le_max_right a x) (foldl_max_init_le ys (max a x))
    · exact ih (max a y) h

theorem JsMin_mem (xs : List ℚ) (h : xs ≠ []) : JsMin xs ∈ xs := by
  cases xs with
  | nil => exact absurd rfl h
  | cons x l =>
    rcases foldl_min_mem l x with he | he
    · rw [JsMin, he]; exact List.mem_cons_self x l
    · exact List.mem_cons_of_mem x (by rw [JsMin]; exact he)

theorem JsMin_le (xs : List ℚ) (x : ℚ) (hx : x ∈ xs) : JsMin xs ≤ x := by
  cases xs with
  | nil => cases hx
  | cons y l =>
    rcases List.mem_cons.mp hx with h | h
    · subst h; exact foldl_min_le_init l x
    · exact foldl_min_le_mem l y x h

theorem JsMax_mem (xs : List ℚ) (h : xs ≠ []) : JsMax xs ∈ xs := by
  cases xs with
  | nil => exact absurd rfl h
  | cons x l =>
    rcases foldl_max_mem l x with he | he
    · rw [JsMax, he]; exact List.mem_cons_self x l
    · exact List.mem_cons_of_mem x (by rw [JsMax]; exact he)

theorem le_JsMax (xs : List ℚ) (x : ℚ) (hx : x ∈ xs) : x ≤ JsMax xs := by
  cases xs with
  | nil => cases hx
  | cons y l =>
    rcases List.mem_cons.mp hx with h | h
    · subst h; exact foldl_max_init_le l x
    · exact foldl_mem_le_max l y x h

/-! ## C2: duration and throughput statistics -/

/-- C2: on a fully collected series, the reported per-operation duration
statistics divide the mean/minimum/maximum of the raw series durations by
the intra-series repetition count, and the throughput statistics are the
reciprocals (`1000 / durationMs`) with the min/max pairing inverted. -/
theorem measurementResult_statistics (path : List String) (title : String)
    (dataSize : Nat) (durations : List ℚ) (seriesSize : Nat)
    (memoryUsages : Option (List ℚ)) (hne : durations ≠ []) (hn : 0 < seriesSize) :
    (computeMeasurementResult path title dataSize durations seriesSize memoryUsages).duration
        = (durations.sum / durations.length) / (seriesSize : ℚ) ∧
    (∃ d ∈ durations,
      (computeMeasurementResult path title dataSize durations seriesSize memoryUsages).durationMin
        = d / (seriesSize : ℚ)) ∧
    (∀ d ∈ durations,
      (computeMeasurementResult path title dataSize durations seriesSize memoryUsages).durationMin
        ≤ d / (seriesSize : ℚ)) ∧
    (∃ d ∈ durations,
      (computeMeasurementResult path title dataSize durations seriesSize memoryUsages).durationMax
        = d / (seriesSize : ℚ)) ∧
    (∀ d ∈ durations,
      d / (seriesSize : ℚ) ≤
        (computeMeasurementResult path title dataSize durations seriesSize memoryUsages).durationMax) ∧
    (computeMeasurementResult path title dataSize durations seriesSize memoryUsages).avg
        = 1000 /
          (computeMeasurementResult path title dataSize durations seriesSize memoryUsages).duration ∧
    (computeMeasurementResult path title dataSize durations seriesSize memoryUsages).min
        = 1000 /
          (computeMeasurementResult path title dataSize durations seriesSize memoryUsages).durationMax ∧
    (computeMeasurementResult path title dataSize durations seriesSize memoryUsages).max
        = 1000 /
          (computeMeasurementResult path title dataSize durations seriesSize memoryUsages).durationMin := by
  have hq : (0 : ℚ) < (seriesSize : ℚ) := by exact_mod_cast hn
  refine ⟨rfl, ⟨JsMin durations, JsMin_mem durations hne, rfl⟩, ?_,
    ⟨JsMax durations, JsMax_mem durations hne, rfl⟩, ?_, rfl, rfl, rfl⟩
  · intro d hd
    simp only [computeMeasurementResult]
    gcongr
    exact JsMin_le durations d hd
  · intro d hd
    simp only [computeMeasurementResult]
    gcongr
    exact le_JsMax durations d hd

/-- Witness for C2 at `durations = [2, 4]`, `seriesSize = 2`. -/
theorem measurementResult_statistics_witness :
    ([(2 : ℚ), 4] ≠ [] ∧ 0 < 2) ∧
    ((computeMeasurementResult ["g", "l"] "l" 10 [(2 : ℚ), 4] 2 none).duration
        = (([(2 : ℚ), 4].sum / ([(2 : ℚ), 4].length)) / ((2 : Nat) : ℚ)) ∧
     (∃ d ∈ [(2 : ℚ), 4],
       (computeMeasurementResult ["g", "l"] "l" 10 [(2 : ℚ), 4] 2 none).durationMin
         = d / ((2 : Nat) : ℚ)) ∧
     (∀ d ∈ [(2 : ℚ), 4],
       (computeMeasurementResult ["g", "l"] "l" 10 [(2 : ℚ), 4] 2 none).durationMin
         ≤ d / ((2 : Nat) : ℚ)) ∧
     (∃ d ∈ [(2 : ℚ), 4],
       (computeMeasurementResult ["g", "l"] "l" 10 [(2 : ℚ), 4] 2 none).durationMax
         = d / ((2 : Nat) : ℚ)) ∧
     (∀ d ∈ [(2 : ℚ), 4],
       d / ((2 : Nat) : ℚ) ≤
         (computeMeasurementResult ["g", "l"] "l" 10 [(2 : ℚ), 4] 2 none).durationMax) ∧
     (computeMeasurementResult ["g", "l"] "l" 10 [(2 : ℚ), 4] 2 none).avg
         = 1000 / (computeMeasurementResult ["g", "l"] "l" 10 [(2 : ℚ), 4] 2 none).duration ∧
     (computeMeasurementResult ["g", "l"] "l" 10 [(2 : ℚ), 4] 2 none).min
         = 1000 / (computeMeasurementResult ["g", "l"] "l" 10 [(2 : ℚ), 4] 2 none).durationMax ∧
     (computeMeasurementResult ["g", "l"] "l" 10 [(2 : ℚ), 4] 2 none).max
         = 1000 / (computeMeasurementResult ["g", "l"] "l" 10 [(2 : ℚ), 4] 2 none).durationMin) :=
  ⟨⟨by decide, by decide⟩,
   measurementResult_statistics ["g", "l"] "l" 10 [(2 : ℚ), 4] 2 none (by decide) (by decide)⟩

/-! ## C10: flags are reset at the start of every run -/

/-- C10: `runMeasurements` first resets the stop flag and clears the skip
set, so the run's behaviour is independent of whatever `stop()` /
`skipPathKey()` calls were issued before the run started: running with
any persisted flags equals running with cleared flags. -/
theorem runMeasurements_independent_of_prior_flags (env : Env)
    (config : MeasurementConfig) (settings : MeasureSettings) (hierarchy : TestNode)
    (functions : List RegisteredFunction) (customEvals : List CustomEvaluation)
    (flags flags' : EngineFlags) :
    runMeasurements env config settings hierarchy functions customEvals flags =
      runMeasurements env config settings hierarchy functions customEvals flags' ∧
    runMeasurements env config settings hierarchy functions customEvals flags =
      runMeasurements env config settings hierarchy functions customEvals
        ⟨false, []⟩ :=
  ⟨rfl, rfl⟩

/-! ## Frame lemmas for the interpreter phases -/

/-- The phase changed nothing an observer can see: no emitted events, no
progress counting, no control-flag change. -/
def SamplingOnly (s s' : EngState) : Prop :=
  s'.stopRequested = s.stopRequested ∧
  s'.skippedSubGroups = s.skippedSubGroups ∧
  s'.trace = s.trace ∧
  s'.currentStep = s.currentStep

theorem samplingOnly_refl (s : EngState) : SamplingOnly s s := ⟨rfl, rfl, rfl, rfl⟩

theorem samplingOnly_trans {s s' s'' : EngState}
    (h : SamplingOnly s s') (h' : SamplingOnly s' s'') : SamplingOnly s s'' :=
  ⟨h'.1.trans h.1, h'.2.1.trans h.2.1, h'.2.2.1.trans h.2.2.1, h'.2.2.2.trans h.2.2.2⟩

/-- External control calls touch only the two flags. -/
theorem applyAction_fields (s : EngState) (a : EngineAction) :
    (applyAction s a).trace = s.trace ∧ (applyAction s a).currentStep = s.currentStep ∧
    (applyAction s a).tick = s.tick ∧ (applyAction s a).timeIdx = s.timeIdx ∧
    (applyAction s a).memIdx = s.memIdx ∧ (applyAction s a).fnCalls = s.fnCalls ∧
    (applyAction s a).genLog = s.genLog := by
  cases a with
  | stop => simp [applyAction]
  | skipPathKey pk => by_cases h : pk ∈ s.skippedSubGroups <;> simp [applyAction, h]

theorem foldl_applyAction_fields (acts : List EngineAction) (s : EngState) :
    (acts.foldl applyAction s).trace = s.trace ∧
    (acts.foldl applyAction s).currentStep = s.currentStep ∧
    (acts.foldl applyAction s).tick = s.tick := by
  induction acts generalizing s with
  | nil => exact ⟨rfl, rfl, rfl⟩
  | cons a rest ih =>
    obtain ⟨h1, h2, h3, -⟩ := applyAction_fields s a
    obtain ⟨g1, g2, g3⟩ := ih (applyAction s a)
    exact ⟨g1.trans h1, g2.trans h2, g3.trans h3⟩

theorem yieldPoint_trace (env : Env) (s : EngState) :
    (yieldPoint env s).trace = s.trace ∧ (yieldPoint env s).currentStep = s.currentStep := by
  obtain ⟨h1, h2, -⟩ := foldl_applyAction_fields (env.actions s.tick) s
  exact ⟨h1, h2⟩

/-- Under no interference a yield point only advances the tick. -/
theorem yieldPoint_quiet {env : Env} (hq : Quiet env) (s : EngState) :
    yieldPoint env s = { s with tick := s.tick + 1 } := by
  simp [yieldPoint, hq s.tick]

theorem generateData_samplingOnly (env : Env) (g sz : Nat) :
    ∀ (n : Nat) (s : EngState), SamplingOnly s (generateData env g sz n s).1 := by
  intro n
  induction n with
  | zero => intro s; exact samplingOnly_refl s
  | succ n ih =>
    intro s
    simp only [generateData]
    cases henv : env.genSem g sz with
    | none => exact ⟨rfl, rfl, rfl, rfl⟩
    | some d =>
      have := ih { s with genLog := s.genLog ++ [(g, sz)] }
      cases hrec : generateData env g sz n { s with genLog := s.genLog ++ [(g, sz)] } with
      | mk s2 o =>
        rw [hrec] at this
        cases o <;> simpa using this

/-- Under a total environment, data generation succeeds, appends exactly
`n` invocations of generator `g` at size `sz` to the log, and changes
nothing else. -/
theorem generateData_total {env : Env} (henv : ∀ g n, (env.genSem g n).isSome)
    (g sz : Nat) : ∀ (n : Nat) (s : EngState), ∃ ds : List Datum,
      generateData env g sz n s =
        ({ s with genLog := s.genLog ++ List.replicate n (g, sz) }, some ds) ∧
      ds.length = n := by
  intro n
  induction n with
  | zero => intro s; exact ⟨[], by simp [generateData], rfl⟩
  | succ n ih =>
    intro s
    obtain ⟨d, hd⟩ := Option.isSome_iff_exists.mp (henv g sz)
    obtain ⟨ds, hds, hlen⟩ := ih { s with genLog := s.genLog ++ [(g, sz)] }
    refine ⟨d :: ds, ?_, by simp [hlen]⟩
    simp only [generateData, hd, hds]
    congr 2
    simp [List.replicate_succ]

theorem invokeSeries_samplingOnly (env : Env) (fnId : Nat) (data : List Datum) :
    ∀ (n i : Nat) (s : EngState), SamplingOnly s (invokeSeries env fnId data i n s).1 := by
  intro n
  induction n with
  | zero => intro i s; exact samplingOnly_refl s
  | succ n ih =>
    intro i s
    simp only [invokeSeries]
    cases henv : env.fnSem fnId s.fnCalls (dataAt data i) with
    | none => exact ⟨rfl, rfl, rfl, rfl⟩
    | some v => simpa using ih (i + 1) { s with fnCalls := s.fnCalls + 1 }

theorem invokeSeries_total {env : Env}
    (henv : ∀ f k d, (env.fnSem f k d).isSome) (fnId : Nat) (data : List Datum) :
    ∀ (n i : Nat) (s : EngState), (invokeSeries env fnId data i n s).2 = true := by
  intro n
  induction n with
  | zero => intro i s; rfl
  | succ n ih =>
    intro i s
    obtain ⟨v, hv⟩ := Option.isSome_iff_exists.mp (henv fnId s.fnCalls (dataAt data i))
    simp only [invokeSeries, hv]
    exact ih (i + 1) _

theorem measureSeriesM_samplingOnly (env : Env) (seriesSize : Nat) (data : List Datum)
    (fnId : Nat) (s : EngState) : SamplingOnly s (measureSeriesM env seriesSize data fnId s).1 := by
  have h := invokeSeries_samplingOnly env fnId data seriesSize 0
    { s with timeIdx := s.timeIdx + 1 }
  simp only [measureSeriesM]
  cases hrec : invokeSeries env fnId data 0 seriesSize { s with timeIdx := s.timeIdx + 1 } with
  | mk s2 ok =>
    rw [hrec] at h
    cases ok <;> simpa using h

theorem measureSeriesM_total {env : Env}
    (henv : ∀ f k d, (env.fnSem f k d).isSome) (seriesSize : Nat) (data : List Datum)
    (fnId : Nat) (s : EngState) : ∃ d, (measureSeriesM env seriesSize data fnId s).2 = some d := by
  have h := invokeSeries_total henv fnId data seriesSize 0 { s with timeIdx := s.timeIdx + 1 }
  simp only [measureSeriesM]
  cases hrec : invokeSeries env fnId data 0 seriesSize { s with timeIdx := s.timeIdx + 1 } with
  | mk s2 ok =>
    rw [hrec] at h
    subst h
    exact ⟨_, rfl⟩

theorem runSeriesLoop_trace (env : Env) (seriesSize : Nat) (data : List Datum) (fnId : Nat) :
    ∀ (n : Nat) (s : EngState) (acc : List ℚ),
      (runSeriesLoop env seriesSize data fnId n s acc).1.trace = s.trace ∧
      (runSeriesLoop env seriesSize data fnId n s acc).1.currentStep = s.currentStep := by
  intro n
  induction n with
  | zero => intro s acc; exact ⟨rfl, rfl⟩
  | succ n ih =>
    intro s acc
    simp only [runSeriesLoop]
    by_cases hstop : s.stopRequested
    · simp [hstop]
    · simp only [hstop, Bool.false_eq_true, if_false]
      have hm := measureSeriesM_samplingOnly env seriesSize data fnId s
      cases hrec : measureSeriesM env seriesSize data fnId s with
      | mk s1 o =>
        rw [hrec] at hm
        cases o with
        | none => exact ⟨hm.2.2.1, hm.2.2.2⟩
        | some d =>
          have hy := yieldPoint_trace env s1
          have := ih (yieldPoint env s1) (acc ++ [d])
          exact ⟨this.1.trans (hy.1.trans hm.2.2.1), this.2.trans (hy.2.trans hm.2.2.2)⟩

/-- Under a total environment the series loop cannot throw (it may stop
early, but always returns its samples). -/
theorem runSeriesLoop_total {env : Env}
    (henv : ∀ f k d, (env.fnSem f k d).isSome) (seriesSize : Nat) (data : List Datum)
    (fnId : Nat) : ∀ (n : Nat) (s : EngState) (acc : List ℚ),
      (runSeriesLoop env seriesSize data fnId n s acc).2.2 = true := by
  intro n
  induction n with
  | zero => intro s acc; rfl
  | succ n ih =>
    intro s acc
    simp only [runSeriesLoop]
    by_cases hstop : s.stopRequested
    · simp [hstop]
    · simp only [hstop, Bool.false_eq_true, if_false]
      obtain ⟨d, hd⟩ := measureSeriesM_total henv seriesSize data fnId s
      cases hrec : measureSeriesM env seriesSize data fnId s with
      | mk s1 o =>
        rw [hrec] at hd
        subst hd
        exact ih (yieldPoint env s1) (acc ++ [d])

theorem measureMemoryLoop_samplingOnly (env : Env) (data : List Datum) (fnId : Nat) :
    ∀ (n i : Nat) (s : EngState) (acc : List ℚ),
      SamplingOnly s (measureMemoryLoop env data fnId i n s acc).1 := by
  intro n
  induction n with
  | zero => intro i s acc; exact samplingOnly_refl s
  | succ n ih =>
    intro i s acc
    simp only [measureMemoryLoop]
    cases henv : env.fnSem fnId s.fnCalls (dataAt data i) with
    | none => exact ⟨rfl, rfl, rfl, rfl⟩
    | some v => exact ih (i + 1) _ _

theorem measureMemoryLoop_total {env : Env}
    (henv : ∀ f k d, (env.fnSem f k d).isSome) (data : List Datum) (fnId : Nat) :
    ∀ (n i : Nat) (s : EngState) (acc : List ℚ),
      ∃ l, (measureMemoryLoop env data fnId i n s acc).2 = some l := by
  intro n
  induction n with
  | zero => intro i s acc; exact ⟨acc, rfl⟩
  | succ n ih =>
    intro i s acc
    obtain ⟨v, hv⟩ := Option.isSome_iff_exists.mp (henv fnId s.fnCalls (dataAt data i))
    simp only [measureMemoryLoop, hv]
    exact ih (i + 1) _ _

theorem runMemoryPhase_samplingOnly (env : Env) (mmc : Option Nat) (data : List Datum)
    (fnId : Nat) (s : EngState) : SamplingOnly s (runMemoryPhase env mmc data fnId s).1 := by
  cases mmc with
  | none => exact samplingOnly_refl s
  | some m =>
    by_cases hm : 0 < m
    · have h := measureMemoryLoop_samplingOnly env data fnId m 0 s []
      simp only [runMemoryPhase, hm, if_true]
      cases hrec : measureMemoryLoop env data fnId 0 m s [] with
      | mk s' o =>
        rw [hrec] at h
        cases o <;> simpa using h
    · simp only [runMemoryPhase, hm, if_false]
      exact samplingOnly_refl s

theorem runMemoryPhase_total {env : Env}
    (henv : ∀ f k d, (env.fnSem f k d).isSome) (mmc : Option Nat) (data : List Datum)
    (fnId : Nat) (s : EngState) : ∃ o, (runMemoryPhase env mmc data fnId s).2 = some o := by
  cases mmc with
  | none => exact ⟨none, rfl⟩
  | some m =>
    by_cases hm : 0 < m
    · obtain ⟨l, hl⟩ := measureMemoryLoop_total henv data fnId m 0 s []
      simp only [runMemoryPhase, hm, if_true]
      cases hrec : measureMemoryLoop env data fnId 0 m s [] with
      | mk s' o =>
        rw [hrec] at hl
        subst hl
        exact ⟨some l, rfl⟩
    · simp only [runMemoryPhase, hm, if_false]
      exact ⟨none, rfl⟩

theorem evalValuesShared_samplingOnly (env : Env) (fnId : Nat) :
    ∀ (ds : List Datum) (s : EngState), SamplingOnly s (evalValuesShared env fnId ds s).1 := by
  intro ds
  induction ds with
  | nil => intro s; exact samplingOnly_refl s
  | cons d rest ih =>
    intro s
    simp only [evalValuesShared]
    cases henv : env.fnSem fnId s.fnCalls (some d) with
    | none => exact ⟨rfl, rfl, rfl, rfl⟩
    | some v =>
      have := ih { s with fnCalls := s.fnCalls + 1 }
      cases hrec : evalValuesShared env fnId rest { s with fnCalls := s.fnCalls + 1 } with
      | mk s2 o =>
        rw [hrec] at this
        cases o <;> simpa using this

theorem evalValuesShared_total {env : Env}
    (henv : ∀ f k d, (env.fnSem f k d).isSome) (fnId : Nat) :
    ∀ (ds : List Datum) (s : EngState), ∃ vs, (evalValuesShared env fnId ds s).2 = some vs := by
  intro ds
  induction ds with
  | nil => intro s; exact ⟨[], rfl⟩
  | cons d rest ih =>
    intro s
    obtain ⟨v, hv⟩ := Option.isSome_iff_exists.mp (henv fnId s.fnCalls (some d))
    obtain ⟨vs, hvs⟩ := ih { s with fnCalls := s.fnCalls + 1 }
    simp only [evalValuesShared, hv]
    cases hrec : evalValuesShared env fnId rest { s with fnCalls := s.fnCalls + 1 } with
    | mk s2 o =>
      rw [hrec] at hvs
      subst hvs
      exact ⟨v :: vs, rfl⟩

theorem evalValuesOwn_samplingOnly (env : Env) (fnId genId dataSize : Nat) :
    ∀ (n : Nat) (s : EngState), SamplingOnly s (evalValuesOwn env fnId genId dataSize n s).1 := by
  intro n
  induction n with
  | zero => intro s; exact samplingOnly_refl s
  | succ n ih =>
    intro s
    simp only [evalValuesOwn]
    cases hg : env.genSem genId dataSize with
    | none => exact ⟨rfl, rfl, rfl, rfl⟩
    | some d =>
      dsimp only
      cases hf : env.fnSem fnId s.fnCalls (some d) with
      | none => exact ⟨rfl, rfl, rfl, rfl⟩
      | some v =>
        dsimp only
        have := ih { s with genLog := s.genLog ++ [(genId, dataSize)], fnCalls := s.fnCalls + 1 }
        cases hrec : evalValuesOwn env fnId genId dataSize n
            { s with genLog := s.genLog ++ [(genId, dataSize)], fnCalls := s.fnCalls + 1 } with
        | mk s2 o =>
          rw [hrec] at this
          cases o <;> simpa using this

theorem evalValuesOwn_total {env : Env}
    (hgen : ∀ g n, (env.genSem g n).isSome)
    (hfn : ∀ f k d, (env.fnSem f k d).isSome) (fnId genId dataSize : Nat) :
    ∀ (n : Nat) (s : EngState), ∃ vs, (evalValuesOwn env fnId genId dataSize n s).2 = some vs := by
  intro n
  induction n with
  | zero => intro s; exact ⟨[], rfl⟩
  | succ n ih =>
    intro s
    obtain ⟨d, hd⟩ := Option.isSome_iff_exists.mp (hgen genId dataSize)
    obtain ⟨v, hv⟩ := Option.isSome_iff_exists.mp
      (hfn fnId ({ s with genLog := s.genLog ++ [(genId, dataSize)] } : EngState).fnCalls (some d))
    obtain ⟨vs, hvs⟩ := ih
      { s with genLog := s.genLog ++ [(genId, dataSize)], fnCalls := s.fnCalls + 1 }
    simp only [evalValuesOwn, hd, hv]
    cases hrec : evalValuesOwn env fnId genId dataSize n
        { s with genLog := s.genLog ++ [(genId, dataSize)], fnCalls := s.fnCalls + 1 } with
    | mk s2 o =>
      rw [hrec] at hvs
      subst hvs
      exact ⟨v :: vs, rfl⟩

theorem emitEvent_spec (env : Env) (T : Nat) (p : List String) (t : String) (sz : Nat)
    (pl : ResultPayload) (s : EngState) :
    (emitEvent env T p t sz pl s).trace =
      s.trace ++
        [⟨p, t, sz, round ((((s.currentStep + sz : Nat) : ℚ) / (T : ℚ)) * 100), pl⟩] ∧
    (emitEvent env T p t sz pl s).currentStep = s.currentStep + sz ∧
    (Quiet env →
      (emitEvent env T p t sz pl s).stopRequested = s.stopRequested ∧
      (emitEvent env T p t sz pl s).skippedSubGroups = s.skippedSubGroups) := by
  have hy := yieldPoint_trace env
    { s with currentStep := s.currentStep + sz,
             trace := s.trace ++
               [⟨p, t, sz, round ((((s.currentStep + sz : Nat) : ℚ) / (T : ℚ)) * 100), pl⟩] }
  refine ⟨by simpa [emitEvent] using hy.1, by simpa [emitEvent] using hy.2, ?_⟩
  intro hq
  simp [emitEvent, yieldPoint_quiet hq]

theorem runSeriesLoop_flags_quiet {env : Env} (hq : Quiet env) (seriesSize : Nat)
    (data : List Datum) (fnId : Nat) : ∀ (n : Nat) (s : EngState) (acc : List ℚ),
    (runSeriesLoop env seriesSize data fnId n s acc).1.stopRequested = s.stopRequested ∧
    (runSeriesLoop env seriesSize data fnId n s acc).1.skippedSubGroups = s.skippedSubGroups := by
  intro n
  induction n with
  | zero => intro s acc; exact ⟨rfl, rfl⟩
  | succ n ih =>
    intro s acc
    rw [runSeriesLoop]
    by_cases hstop : s.stopRequested
    · rw [if_pos hstop]; exact ⟨rfl, rfl⟩
    · rw [if_neg hstop]
      have hm := measureSeriesM_samplingOnly env seriesSize data fnId s
      cases hrec : measureSeriesM env seriesSize data fnId s with
      | mk s1 o =>
        rw [hrec] at hm
        cases o with
        | none => exact ⟨hm.1, hm.2.1⟩
        | some d =>
          have := ih (yieldPoint env s1) (acc ++ [d])
          have hy1 : (yieldPoint env s1).stopRequested = s1.stopRequested := by
            rw [yieldPoint_quiet hq s1]
          have hy2 : (yieldPoint env s1).skippedSubGroups = s1.skippedSubGroups := by
            rw [yieldPoint_quiet hq s1]
          exact ⟨(this.1.trans hy1).trans hm.1, (this.2.trans hy2).trans hm.2.1⟩

/-- Once a measure item starts (the per-item check points are behind it),
it runs to completion and emits exactly one result event — regardless of
`stop`/`skip` requests arriving at its interior yield points — provided no
registered closure throws.  The event carries the registered path, the
item title, the data size, and the progress percentage computed from the
incremented step counter. -/
theorem runMeasureItem_one_event {env : Env} (henv : TotalEnv env)
    (rc : ResolvedConfig) (T : Nat) (title : String) (f : RegisteredFunction)
    (shared : Option (List Datum)) (sz : Nat) (s : EngState) :
    ∃ s' r, runMeasureItem env rc T title f shared sz s = (s', true) ∧
      s'.trace = s.trace ++
        [⟨f.path.getD [], title, sz,
          round ((((s.currentStep + sz : Nat) : ℚ) / (T : ℚ)) * 100), .result r⟩] ∧
      s'.currentStep = s.currentStep + sz ∧
      (Quiet env →
        s'.stopRequested = s.stopRequested ∧
        s'.skippedSubGroups = s.skippedSubGroups) := by
  obtain ⟨hgen, hfn⟩ := henv
  -- the data phase
  obtain ⟨s1, dataArray, hphase, hso⟩ :
      ∃ s1 dataArray,
        dataPhase env f.genId sz rc.dataUnitsCount shared s = (s1, some dataArray) ∧
          SamplingOnly s s1 := by
    cases shared with
    | some ds => exact ⟨s, ds, rfl, samplingOnly_refl s⟩
    | none =>
      obtain ⟨ds, hds, -⟩ := generateData_total hgen f.genId sz rc.dataUnitsCount s
      refine ⟨{ s with genLog := s.genLog ++ List.replicate rc.dataUnitsCount (f.genId, sz) },
        ds, ?_, ?_⟩
      · simpa [dataPhase] using hds
      · have := generateData_samplingOnly env f.genId sz rc.dataUnitsCount s
        rw [hds] at this
        exact this
  rw [runMeasureItem, hphase]
  dsimp only
  -- the series loop
  have hslt := runSeriesLoop_trace env rc.seriesSize dataArray f.fnId rc.seriesCount s1 []
  have hslo := runSeriesLoop_total hfn rc.seriesSize dataArray f.fnId rc.seriesCount s1 []
  have hslf := fun hq => @runSeriesLoop_flags_quiet env hq rc.seriesSize dataArray
    f.fnId rc.seriesCount s1 []
  cases hsl : runSeriesLoop env rc.seriesSize dataArray f.fnId rc.seriesCount s1 [] with
  | mk s2 rest =>
    obtain ⟨durations, ok⟩ := rest
    rw [hsl] at hslt hslo hslf
    simp only at hslo
    subst hslo
    dsimp only
    -- the memory phase
    have hmpo := runMemoryPhase_samplingOnly env rc.memoryMeasurementsCount dataArray f.fnId s2
    obtain ⟨mo, hmo⟩ := runMemoryPhase_total hfn rc.memoryMeasurementsCount dataArray f.fnId s2
    cases hmp : runMemoryPhase env rc.memoryMeasurementsCount dataArray f.fnId s2 with
    | mk s3 o =>
      rw [hmp] at hmpo hmo
      simp only at hmo
      subst hmo
      dsimp only
      -- the emit
      have hemit := emitEvent_spec env T (f.path.getD []) title sz
        (.result (computeMeasurementResult (f.path.getD []) title sz durations rc.seriesSize mo)) s3
      refine ⟨_, computeMeasurementResult (f.path.getD []) title sz durations rc.seriesSize mo,
        rfl, ?_, ?_, ?_⟩
      · rw [hemit.1, hmpo.2.2.1, hslt.1, hso.2.2.1, hmpo.2.2.2, hslt.2, hso.2.2.2]
      · rw [hemit.2.1, hmpo.2.2.2, hslt.2, hso.2.2.2]
      · intro hq
        obtain ⟨he1, he2⟩ := hemit.2.2 hq
        obtain ⟨hf1, hf2⟩ := hslf hq
        exact ⟨((he1.trans hmpo.1).trans hf1).trans hso.1,
               ((he2.trans hmpo.2.1).trans hf2).trans hso.2.1⟩

/-- The evaluate-item analogue of `runMeasureItem_one_event`. -/
theorem runEvaluateItem_one_event {env : Env} (henv : TotalEnv env)
    (rc : ResolvedConfig) (T : Nat) (title : String) (e : CustomEvaluation)
    (shared : Option (List Datum)) (sz : Nat) (s : EngState) :
    ∃ s' r, runEvaluateItem env rc T title e shared sz s = (s', true) ∧
      s'.trace = s.trace ++
        [⟨e.path.getD [], title, sz,
          round ((((s.currentStep + sz : Nat) : ℚ) / (T : ℚ)) * 100), .customResult r⟩] ∧
      s'.currentStep = s.currentStep + sz ∧
      (Quiet env →
        s'.stopRequested = s.stopRequested ∧
        s'.skippedSubGroups = s.skippedSubGroups) := by
  obtain ⟨hgen, hfn⟩ := henv
  obtain ⟨s1, values, hphase, hso⟩ :
      ∃ s1 values,
        evalValuesPhase env e.fnId e.genId sz rc.dataUnitsCount shared s =
          (s1, some values) ∧ SamplingOnly s s1 := by
    cases shared with
    | some ds =>
      have h1 := evalValuesShared_samplingOnly env e.fnId ds s
      obtain ⟨vs, hvs⟩ := evalValuesShared_total hfn e.fnId ds s
      cases hrec : evalValuesShared env e.fnId ds s with
      | mk s1 o =>
        rw [hrec] at h1 hvs
        simp only at hvs
        subst hvs
        exact ⟨s1, vs, by simpa [evalValuesPhase] using hrec, h1⟩
    | none =>
      have h1 := evalValuesOwn_samplingOnly env e.fnId e.genId sz rc.dataUnitsCount s
      obtain ⟨vs, hvs⟩ := evalValuesOwn_total hgen hfn e.fnId e.genId sz rc.dataUnitsCount s
      cases hrec : evalValuesOwn env e.fnId e.genId sz rc.dataUnitsCount s with
      | mk s1 o =>
        rw [hrec] at h1 hvs
        simp only at hvs
        subst hvs
        exact ⟨s1, vs, by simpa [evalValuesPhase] using hrec, h1⟩
  rw [runEvaluateItem, hphase]
  dsimp only
  have hemit := emitEvent_spec env T (e.path.getD []) title sz
    (.customResult (computeCustomResult (e.path.getD []) title sz values e.customChartId)) s1
  refine ⟨_, computeCustomResult (e.path.getD []) title sz values e.customChartId,
    rfl, ?_, ?_, ?_⟩
  · rw [hemit.1, hso.2.2.1, hso.2.2.2]
  · rw [hemit.2.1, hso.2.2.2]
  · intro hq
    obtain ⟨he1, he2⟩ := hemit.2.2 hq
    exact ⟨he1.trans hso.1, he2.trans hso.2.1⟩

/-- C1/C9 workhorse: a started item emits exactly one event. -/
theorem runItem_one_event {env : Env} (henv : TotalEnv env) (rc : ResolvedConfig)
    (T : Nat) (it : UnifiedItem) (shared : Option (List Datum)) (sz : Nat) (s : EngState) :
    ∃ s' pl, runItem env rc T it shared sz s = (s', true) ∧
      s'.trace = s.trace ++
        [⟨it.itemPath, it.title, sz,
          round ((((s.currentStep + sz : Nat) : ℚ) / (T : ℚ)) * 100), pl⟩] ∧
      s'.currentStep = s.currentStep + sz ∧
      (Quiet env →
        s'.stopRequested = s.stopRequested ∧
        s'.skippedSubGroups = s.skippedSubGroups) := by
  cases hpl : it.payload with
  | measureItem f =>
    obtain ⟨s', r, h1, h2, h3, h4⟩ := runMeasureItem_one_event henv rc T it.title f shared sz s
    exact ⟨s', .result r, by rw [runItem, hpl]; exact h1,
      by rw [h2]; simp [UnifiedItem.itemPath, hpl], h3, h4⟩
  | evaluateItem e =>
    obtain ⟨s', r, h1, h2, h3, h4⟩ := runEvaluateItem_one_event henv rc T it.title e shared sz s
    exact ⟨s', .customResult r, by rw [runItem, hpl]; exact h1,
      by rw [h2]; simp [UnifiedItem.itemPath, hpl], h3, h4⟩

/-! ## Concrete fixtures used by witnesses and counterexamples -/

/-- A benign environment: unit data, constant clock, no interference. -/
def envT : Env :=
  { genSem := fun _ _ => some 1
    fnSem := fun _ _ _ => some 0
    time := fun _ => 0
    memUsage := fun _ => 0
    actions := fun _ => [] }

theorem envT_total : TotalEnv envT := ⟨fun _ _ => rfl, fun _ _ _ => rfl⟩

theorem envT_quiet : Quiet envT := fun _ => rfl

/-- An environment whose target functions always throw. -/
def envThrow : Env :=
  { genSem := fun _ _ => some 1
    fnSem := fun _ _ _ => none
    time := fun _ => 0
    memUsage := fun _ => 0
    actions := fun _ => [] }

/-- A small resolved configuration for concrete runs. -/
def rcT : ResolvedConfig :=
  { dataUnitSizes := [1], dataUnitsCount := 1, seriesSize := 1, seriesCount := 1
    delay := 0, forceGC := false, memoryMeasurementsCount := none }

def regA : RegisteredFunction := { title := "a", fnId := 10, genId := 0, path := some ["G", "a"] }

def itemA : UnifiedItem := ⟨0, "G", "a", .measureItem regA⟩

/-- A fresh run-local state. -/
def s0 : EngState := initialState ⟨false, []⟩

/-- A state in which a stop was requested. -/
def sStop : EngState := { s0 with stopRequested := true }

/-- A state in which group "G" was skipped. -/
def sSkip : EngState := { s0 with skippedSubGroups := ["G"] }

/-! ## C8: cooperative stop -/

/-- C8: once `stop()` has set the cooperative flag, every one of the
three check points (start of a group, start of a data size, before a
leaf) aborts the entire plan immediately: each loop returns its input
state unchanged, so no further result event is emitted after the stop
takes effect; and the series loop also breaks out at once — its state
(including the yield-point counter, so in particular no further
inter-series delay is entered) is returned unchanged. -/
theorem stop_aborts_at_next_checkpoint :
    (∀ env rc T itemsBy se pks (s : EngState), s.stopRequested = true →
      runGroups env rc T itemsBy se pks s = (s, true)) ∧
    (∀ env rc T pk items share g szs (s : EngState), s.stopRequested = true →
      runSizes env rc T pk items share g szs s = (s, true)) ∧
    (∀ env rc T pk shared sz its (s : EngState), s.stopRequested = true →
      runItems env rc T pk shared sz its s = (s, true)) ∧
    (∀ env n data fnId k (s : EngState) acc, s.stopRequested = true →
      runSeriesLoop env n data fnId k s acc = (s, acc, true)) := by
  refine ⟨?_, ?_, ?_, ?_⟩
  · intro env rc T itemsBy se pks s h
    cases pks with
    | nil => rfl
    | cons pk rest => rw [runGroups, if_pos h]
  · intro env rc T pk items share g szs s h
    cases szs with
    | nil => rfl
    | cons sz rest => rw [runSizes, if_pos h]
  · intro env rc T pk shared sz its s h
    cases its with
    | nil => rfl
    | cons it rest => rw [runItems, if_pos h]
  · intro env n data fnId k s acc h
    cases k with
    | zero => rfl
    | succ k => rw [runSeriesLoop, if_pos h]

/-- Witness for C8 on concrete stopped states. -/
theorem stop_aborts_at_next_checkpoint_witness :
    sStop.stopRequested = true ∧
    runGroups envT rcT 1 [("G", [itemA])] true ["G"] sStop = (sStop, true) ∧
    runSizes envT rcT 1 "G" [itemA] true 0 [1] sStop = (sStop, true) ∧
    runItems envT rcT 1 "G" none 1 [itemA] sStop = (sStop, true) ∧
    runSeriesLoop envT 1 [1] 10 1 sStop [] = (sStop, [], true) :=
  ⟨rfl,
   stop_aborts_at_next_checkpoint.1 envT rcT 1 [("G", [itemA])] true ["G"] sStop (by decide),
   stop_aborts_at_next_checkpoint.2.1 envT rcT 1 "G" [itemA] true 0 [1] sStop (by decide),
   stop_aborts_at_next_checkpoint.2.2.1 envT rcT 1 "G" none 1 [itemA] sStop (by decide),
   stop_aborts_at_next_checkpoint.2.2.2 envT 1 [1] 10 1 sStop [] (by decide)⟩

/-! ## C9: per-group skip -/

/-- C9: a skip of an owner path key issued before the group's data-size
loop starts makes the group loop pass over that group without emitting
anything while continuing with the subsequent groups; the skip set is
consulted again at the start of each data size and before each leaf
(aborting the remainder of the group); and a skip arriving mid-leaf does
not abort the in-flight leaf — a started item always completes and emits
its single event (when no closure throws), whatever requests arrive at
its interior yield points. -/
theorem skip_group_semantics :
    (∀ env rc T itemsBy se pk rest (s : EngState), s.stopRequested = false →
      pk ∈ s.skippedSubGroups →
      runGroups env rc T itemsBy se (pk :: rest) s =
        runGroups env rc T itemsBy se rest s) ∧
    (∀ env rc T pk items share g sz rest (s : EngState), s.stopRequested = false →
      pk ∈ s.skippedSubGroups →
      runSizes env rc T pk items share g (sz :: rest) s = (s, true)) ∧
    (∀ env rc T pk shared sz it rest (s : EngState), s.stopRequested = false →
      pk ∈ s.skippedSubGroups →
      runItems env rc T pk shared sz (it :: rest) s = (s, true)) ∧
    (∀ env rc T it shared sz (s : EngState), TotalEnv env →
      ∃ s' pl, runItem env rc T it shared sz s = (s', true) ∧
        s'.trace = s.trace ++
          [⟨it.itemPath, it.title, sz,
            round ((((s.currentStep + sz : Nat) : ℚ) / (T : ℚ)) * 100), pl⟩]) := by
  refine ⟨?_, ?_, ?_, ?_⟩
  · intro env rc T itemsBy se pk rest s hstop hmem
    rw [runGroups, if_neg (by simp [hstop])]
    cases (mapGet itemsBy pk).getD [] with
    | nil => rfl
    | cons first others =>
      dsimp only
      rw [if_pos hmem]
  · intro env rc T pk items share g sz rest s hstop hmem
    rw [runSizes, if_neg (by simp [hstop]), if_pos hmem]
  · intro env rc T pk shared sz it rest s hstop hmem
    rw [runItems, if_neg (by simp [hstop]), if_pos hmem]
  · intro env rc T it shared sz s henv
    obtain ⟨s', pl, h1, h2, -, -⟩ := runItem_one_event henv rc T it shared sz s
    exact ⟨s', pl, h1, h2⟩

/-- Witness for C9 on concrete skipped states and a concrete item. -/
theorem skip_group_semantics_witness :
    (sSkip.stopRequested = false ∧ "G" ∈ sSkip.skippedSubGroups) ∧
    runGroups envT rcT 1 [("G", [itemA])] true ["G", "H"] sSkip =
      runGroups envT rcT 1 [("G", [itemA])] true ["H"] sSkip ∧
    runSizes envT rcT 1 "G" [itemA] true 0 [1] sSkip = (sSkip, true) ∧
    runItems envT rcT 1 "G" none 1 [itemA] sSkip = (sSkip, true) ∧
    (∃ s' pl, runItem envT rcT 1 itemA none 1 sSkip = (s', true) ∧
      s'.trace = sSkip.trace ++
        [⟨itemA.itemPath, itemA.title, 1,
          round ((((sSkip.currentStep + 1 : Nat) : ℚ) / ((1 : Nat) : ℚ)) * 100), pl⟩]) :=
  ⟨⟨rfl, by decide⟩,
   skip_group_semantics.1 envT rcT 1 [("G", [itemA])] true "G" ["H"] sSkip rfl (by decide),
   skip_group_semantics.2.1 envT rcT 1 "G" [itemA] true 0 1 [] sSkip rfl (by decide),
   skip_group_semantics.2.2.1 envT rcT 1 "G" none 1 itemA [] sSkip rfl (by decide),
   skip_group_semantics.2.2.2 envT rcT 1 itemA none 1 sSkip envT_total⟩

/-! ## C7: exceptions are fatal to the run -/

theorem dataPhase_samplingOnly (env : Env) (g sz n : Nat) (shared : Option (List Datum))
    (s : EngState) : SamplingOnly s (dataPhase env g sz n shared s).1 := by
  cases shared with
  | some ds => exact samplingOnly_refl s
  | none => exact generateData_samplingOnly env g sz n s

theorem evalValuesPhase_samplingOnly (env : Env) (fnId genId sz n : Nat)
    (shared : Option (List Datum)) (s : EngState) :
    SamplingOnly s (evalValuesPhase env fnId genId sz n shared s).1 := by
  cases shared with
  | some ds => exact evalValuesShared_samplingOnly env fnId ds s
  | none => exact evalValuesOwn_samplingOnly env fnId genId sz n s

theorem runMeasureItem_fail_no_event (env : Env) (rc : ResolvedConfig) (T : Nat)
    (title : String) (f : RegisteredFunction) (shared : Option (List Datum))
    (sz : Nat) (s : EngState) :
    (runMeasureItem env rc T title f shared sz s).2 = false →
    (runMeasureItem env rc T title f shared sz s).1.trace = s.trace := by
  intro h
  rw [runMeasureItem] at h ⊢
  have hdp := dataPhase_samplingOnly env f.genId sz rc.dataUnitsCount shared s
  cases hphase : dataPhase env f.genId sz rc.dataUnitsCount shared s with
  | mk s1 o =>
    rw [hphase] at h hdp
    cases o with
    | none => exact hdp.2.2.1
    | some dataArray =>
      dsimp only at h ⊢
      have hsl := runSeriesLoop_trace env rc.seriesSize dataArray f.fnId rc.seriesCount s1 []
      cases hrec : runSeriesLoop env rc.seriesSize dataArray f.fnId rc.seriesCount s1 [] with
      | mk s2 r =>
        obtain ⟨durations, ok⟩ := r
        rw [hrec] at h hsl
        cases ok with
        | false => exact hsl.1.trans hdp.2.2.1
        | true =>
          dsimp only at h ⊢
          have hmp := runMemoryPhase_samplingOnly env rc.memoryMeasurementsCount dataArray f.fnId s2
          cases hmrec : runMemoryPhase env rc.memoryMeasurementsCount dataArray f.fnId s2 with
          | mk s3 o2 =>
            rw [hmrec] at h hmp
            cases o2 with
            | none => exact (hmp.2.2.1.trans hsl.1).trans hdp.2.2.1
            | some mo => exact absurd h (by simp)

theorem runEvaluateItem_fail_no_event (env : Env) (rc : ResolvedConfig) (T : Nat)
    (title : String) (e : CustomEvaluation) (shared : Option (List Datum))
    (sz : Nat) (s : EngState) :
    (runEvaluateItem env rc T title e shared sz s).2 = false →
    (runEvaluateItem env rc T title e shared sz s).1.trace = s.trace := by
  intro h
  rw [runEvaluateItem] at h ⊢
  have hvp := evalValuesPhase_samplingOnly env e.fnId e.genId sz rc.dataUnitsCount shared s
  cases hphase : evalValuesPhase env e.fnId e.genId sz rc.dataUnitsCount shared s with
  | mk s1 o =>
    rw [hphase] at h hvp
    cases o with
    | none => exact hvp.2.2.1
    | some values => exact absurd h (by simp)

theorem runItem_fail_no_event (env : Env) (rc : ResolvedConfig) (T : Nat)
    (it : UnifiedItem) (shared : Option (List Datum)) (sz : Nat) (s : EngState) :
    (runItem env rc T it shared sz s).2 = false →
    (runItem env rc T it shared sz s).1.trace = s.trace := by
  cases hpl : it.payload with
  | measureItem f =>
    rw [runItem, hpl]
    exact runMeasureItem_fail_no_event env rc T it.title f shared sz s
  | evaluateItem e =>
    rw [runItem, hpl]
    exact runEvaluateItem_fail_no_event env rc T it.title e shared sz s

theorem runItems_fail_stops (env : Env) (rc : ResolvedConfig) (T : Nat) (pk : String)
    (shared : Option (List Datum)) (sz : Nat) :
    ∀ (its its' : List UnifiedItem) (s : EngState),
      (runItems env rc T pk shared sz its s).2 = false →
      runItems env rc T pk shared sz (its ++ its') s =
        runItems env rc T pk shared sz its s := by
  intro its
  induction its with
  | nil => intro its' s h; exact absurd h (by simp [runItems])
  | cons it rest ih =>
    intro its' s h
    by_cases hstop : s.stopRequested
    · rw [runItems, if_pos hstop] at h; exact absurd h (by simp)
    · by_cases hskip : pk ∈ s.skippedSubGroups
      · rw [runItems, if_neg hstop, if_pos hskip] at h; exact absurd h (by simp)
      · rw [runItems, if_neg hstop, if_neg hskip] at h
        rw [List.cons_append, runItems, if_neg hstop, if_neg hskip,
          runItems, if_neg hstop, if_neg hskip]
        cases hri : runItem env rc T it shared sz s with
        | mk s' ok =>
          rw [hri] at h
          cases ok with
          | false => rfl
          | true =>
            dsimp only at h ⊢
            exact ih its' s' h

theorem runSizes_fail_stops (env : Env) (rc : ResolvedConfig) (T : Nat) (pk : String)
    (items : List UnifiedItem) (share : Bool) (g : Nat) :
    ∀ (szs szs' : List Nat) (s : EngState),
      (runSizes env rc T pk items share g szs s).2 = false →
      runSizes env rc T pk items share g (szs ++ szs') s =
        runSizes env rc T pk items share g szs s := by
  intro szs
  induction szs with
  | nil => intro szs' s h; exact absurd h (by simp [runSizes])
  | cons sz rest ih =>
    intro szs' s h
    by_cases hstop : s.stopRequested
    · rw [runSizes, if_pos hstop] at h; exact absurd h (by simp)
    · by_cases hskip : pk ∈ s.skippedSubGroups
      · rw [runSizes, if_neg hstop, if_pos hskip] at h; exact absurd h (by simp)
      · rw [runSizes, if_neg hstop, if_neg hskip] at h
        rw [List.cons_append, runSizes, if_neg hstop, if_neg hskip,
          runSizes, if_neg hstop, if_neg hskip]
        cases hsp : sharedDataPhase env g sz rc.dataUnitsCount share s with
        | mk s1 o =>
          rw [hsp] at h
          cases o with
          | none => rfl
          | some sharedDataArray =>
            dsimp only at h ⊢
            cases hri : runItems env rc T pk sharedDataArray sz items s1 with
            | mk s2 ok =>
              rw [hri] at h
              cases ok with
              | false => rfl
              | true =>
                dsimp only at h ⊢
                exact ih szs' s2 h

theorem runGroups_fail_stops (env : Env) (rc : ResolvedConfig) (T : Nat)
    (itemsBy : List (String × List UnifiedItem)) (se : Bool) :
    ∀ (pks pks' : List String) (s : EngState),
      (runGroups env rc T itemsBy se pks s).2 = false →
      runGroups env rc T itemsBy se (pks ++ pks') s =
        runGroups env rc T itemsBy se pks s := by
  intro pks
  induction pks with
  | nil => intro pks' s h; exact absurd h (by simp [runGroups])
  | cons pk rest ih =>
    intro pks' s h
    by_cases hstop : s.stopRequested
    · rw [runGroups, if_pos hstop] at h; exact absurd h (by simp)
    · rw [runGroups, if_neg hstop] at h
      rw [List.cons_append, runGroups, if_neg hstop, runGroups, if_neg hstop]
      cases hitems : (mapGet itemsBy pk).getD [] with
      | nil =>
        rw [hitems] at h
        dsimp only at h ⊢
        exact ih pks' s h
      | cons first others =>
        rw [hitems] at h
        dsimp only at h ⊢
        by_cases hskip : pk ∈ s.skippedSubGroups
        · rw [if_pos hskip] at h
          rw [if_pos hskip, if_pos hskip]
          exact ih pks' s h
        · rw [if_neg hskip] at h
          rw [if_neg hskip, if_neg hskip]
          cases hrs : runSizes env rc T pk (first :: others)
              (se && ((first :: others).all fun it => it.genIdOf = first.genIdOf))
              first.genIdOf rc.dataUnitSizes s with
          | mk s' ok =>
            rw [hrs] at h
            cases ok with
            | false => rfl
            | true =>
              dsimp only at h ⊢
              exact ih pks' s' h

/-- C7: a thrown exception in a registered target function or data
generator is fatal: the failing item emits no event for its (leaf, data
size) unit, and the failure propagates through the item loop, the size
loop and the group loop without any further event being emitted or any
per-leaf recovery — appending more work after the failing prefix leaves
the outcome (state and error flag) unchanged, so the error surfaces to
the caller of `runMeasurements`. -/
theorem exception_fatal_to_run :
    (∀ env rc T it shared sz (s : EngState),
      (runItem env rc T it shared sz s).2 = false →
      (runItem env rc T it shared sz s).1.trace = s.trace) ∧
    (∀ env rc T pk shared sz its its' (s : EngState),
      (runItems env rc T pk shared sz its s).2 = false →
      runItems env rc T pk shared sz (its ++ its') s =
        runItems env rc T pk shared sz its s) ∧
    (∀ env rc T pk items share g szs szs' (s : EngState),
      (runSizes env rc T pk items share g szs s).2 = false →
      runSizes env rc T pk items share g (szs ++ szs') s =
        runSizes env rc T pk items share g szs s) ∧
    (∀ env rc T itemsBy se pks pks' (s : EngState),
      (runGroups env rc T itemsBy se pks s).2 = false →
      runGroups env rc T itemsBy se (pks ++ pks') s =
        runGroups env rc T itemsBy se pks s) :=
  ⟨fun env rc T it shared sz s => runItem_fail_no_event env rc T it shared sz s,
   fun env rc T pk shared sz its its' s => runItems_fail_stops env rc T pk shared sz its its' s,
   fun env rc T pk items share g szs szs' s => runSizes_fail_stops env rc T pk items share g szs szs' s,
   fun env rc T itemsBy se pks pks' s => runGroups_fail_stops env rc T itemsBy se pks pks' s⟩

/-- Witness for C7 with an always-throwing target function. -/
theorem exception_fatal_to_run_witness :
    ((runItem envThrow rcT 1 itemA none 1 s0).2 = false ∧
      (runItem envThrow rcT 1 itemA none 1 s0).1.trace = s0.trace) ∧
    ((runItems envThrow rcT 1 "G" none 1 [itemA] s0).2 = false ∧
      runItems envThrow rcT 1 "G" none 1 ([itemA] ++ [itemA]) s0 =
        runItems envThrow rcT 1 "G" none 1 [itemA] s0) ∧
    ((runSizes envThrow rcT 1 "G" [itemA] true 0 [1] s0).2 = false ∧
      runSizes envThrow rcT 1 "G" [itemA] true 0 ([1] ++ [1]) s0 =
        runSizes envThrow rcT 1 "G" [itemA] true 0 [1] s0) ∧
    ((runGroups envThrow rcT 1 [("G", [itemA])] true ["G"] s0).2 = false ∧
      runGroups envThrow rcT 1 [("G", [itemA])] true (["G"] ++ ["H"]) s0 =
        runGroups envThrow rcT 1 [("G", [itemA])] true ["G"] s0) :=
  ⟨⟨by decide, exception_fatal_to_run.1 envThrow rcT 1 itemA none 1 s0 (by decide)⟩,
   ⟨by decide, exception_fatal_to_run.2.1 envThrow rcT 1 "G" none 1 [itemA] [itemA] s0 (by decide)⟩,
   ⟨by decide, exception_fatal_to_run.2.2.1 envThrow rcT 1 "G" [itemA] true 0 [1] [1] s0 (by decide)⟩,
   ⟨by decide, exception_fatal_to_run.2.2.2 envThrow rcT 1 [("G", [itemA])] true ["G"] ["H"] s0 (by decide)⟩⟩

/-! ## C5: selection filtering -/

/-- The two leaves of spec Scenario B. -/
def regJSON : RegisteredFunction :=
  { title := "x", fnId := 1, genId := 1, path := some ["Encoding", "JSON", "x"] }

def regBinary : RegisteredFunction :=
  { title := "y", fnId := 2, genId := 2, path := some ["Encoding", "Binary", "y"] }

/-- The Scenario B configuration: one pattern `[undefined, "Binary"]`. -/
def cfgScenarioB : MeasurementConfig :=
  { selectedPaths := some [[.wildcard, .exact "Binary"]] }

/-- C5: when the configuration supplies one or more selection patterns, a
registered leaf (with a path) is kept iff its path matches at least one
pattern (logical OR); when it supplies none, every leaf is kept; in
particular the pattern `[undefined, "Binary"]` keeps the leaf at
`["Encoding","Binary","y"]` and drops the one at `["Encoding","JSON","x"]`. -/
theorem selection_filter_semantics :
    (∀ (config : MeasurementConfig) (fs : List RegisteredFunction)
        (f : RegisteredFunction) (p : List String),
      f.path = some p → hasSelection config = true →
      (f ∈ filteredFunctionsOf config fs ↔
        f ∈ fs ∧ ∃ pat ∈ config.selectedPaths.getD [], matchesPathPattern p pat = true)) ∧
    (∀ (config : MeasurementConfig) (fs : List RegisteredFunction),
      hasSelection config = false → filteredFunctionsOf config fs = fs) ∧
    (∀ (config : MeasurementConfig) (es : List CustomEvaluation)
        (e : CustomEvaluation) (p : List String),
      e.path = some p → hasSelection config = true →
      (e ∈ filteredEvalsOf config es ↔
        e ∈ es ∧ ∃ pat ∈ config.selectedPaths.getD [], matchesPathPattern p pat = true)) ∧
    (∀ (config : MeasurementConfig) (es : List CustomEvaluation),
      hasSelection config = false → filteredEvalsOf config es = es) ∧
    filteredFunctionsOf cfgScenarioB [regJSON, regBinary] = [regBinary] := by
  refine ⟨?_, ?_, ?_, ?_, by decide⟩
  · intro config fs f p hp hsel
    rw [filteredFunctionsOf, if_pos hsel]
    simp [List.mem_filter, hp]
  · intro config fs hsel
    rw [filteredFunctionsOf, if_neg (by simp [hsel])]
  · intro config es e p hp hsel
    rw [filteredEvalsOf, if_pos hsel]
    simp [List.mem_filter, hp]
  · intro config es hsel
    rw [filteredEvalsOf, if_neg (by simp [hsel])]

/-- Witness for C5 at Scenario B's concrete configuration and leaves. -/
theorem selection_filter_semantics_witness :
    (regBinary.path = some ["Encoding", "Binary", "y"] ∧
      hasSelection cfgScenarioB = true) ∧
    (regBinary ∈ filteredFunctionsOf cfgScenarioB [regJSON, regBinary] ↔
      regBinary ∈ [regJSON, regBinary] ∧
        ∃ pat ∈ cfgScenarioB.selectedPaths.getD [],
          matchesPathPattern ["Encoding", "Binary", "y"] pat = true) ∧
    filteredFunctionsOf { selectedPaths := none } [regJSON, regBinary] =
      [regJSON, regBinary] :=
  ⟨⟨rfl, rfl⟩,
   selection_filter_semantics.1 cfgScenarioB [regJSON, regBinary] regBinary
     ["Encoding", "Binary", "y"] rfl rfl,
   selection_filter_semantics.2.1 { selectedPaths := none } [regJSON, regBinary] rfl⟩

/-! ## Plan-builder lemmas -/

theorem mapGet_cons_pos {α : Type} (e : String × α) (m : List (String × α)) (k : String)
    (h : e.1 = k) : mapGet (e :: m) k = some e.2 := by
  rw [mapGet, List.find?_cons_of_pos _ (by simpa using h)]
  rfl

theorem mapGet_cons_neg {α : Type} (e : String × α) (m : List (String × α)) (k : String)
    (h : ¬e.1 = k) : mapGet (e :: m) k = mapGet m k := by
  rw [mapGet, List.find?_cons_of_neg _ (by simpa using h)]
  rfl

theorem mapGet_append {α : Type} (m m' : List (String × α)) (k : String) :
    mapGet (m ++ m') k = (mapGet m k).or (mapGet m' k) := by
  induction m with
  | nil => simp [mapGet]
  | cons e rest ih =>
    by_cases he : e.1 = k
    · rw [List.cons_append, mapGet_cons_pos e _ k he, mapGet_cons_pos e rest k he]
      rfl
    · rw [List.cons_append, mapGet_cons_neg e _ k he, mapGet_cons_neg e rest k he, ih]

theorem mapGet_none_of_not_any {α : Type} (m : List (String × α)) (k : String)
    (h : m.any (fun e => e.1 = k) = false) : mapGet m k = none := by
  induction m with
  | nil => rfl
  | cons e rest ih =>
    simp only [List.any_cons, Bool.or_eq_false_iff] at h
    rw [mapGet_cons_neg e rest k (by simpa using h.1), ih h.2]

theorem mapGet_replace_self {α : Type} (m : List (String × α)) (k : String) (v : α) :
    mapGet (m.map fun e => if e.1 = k then (k, v) else e) k =
      if m.any (fun e => e.1 = k) then some v else none := by
  induction m with
  | nil => rfl
  | cons e rest ih =>
    by_cases he : e.1 = k
    · rw [List.map_cons, if_pos he, mapGet_cons_pos _ _ _ rfl]
      simp [he]
    · rw [List.map_cons, if_neg he, mapGet_cons_neg _ _ _ he, ih]
      have hd : (decide (e.1 = k)) = false := by simpa using he
      rw [List.any_cons, hd, Bool.false_or]

theorem mapGet_replace_ne {α : Type} (m : List (String × α)) (k k' : String) (v : α)
    (h : k' ≠ k) :
    mapGet (m.map fun e => if e.1 = k then (k, v) else e) k' = mapGet m k' := by
  induction m with
  | nil => rfl
  | cons e rest ih =>
    by_cases he : e.1 = k
    · rw [List.map_cons, if_pos he, mapGet_cons_neg _ _ _ (by simpa using Ne.symm h),
        mapGet_cons_neg e rest k' (by rw [he]; simpa using Ne.symm h)]
      exact ih
    · by_cases he' : e.1 = k'
      · rw [List.map_cons, if_neg he, mapGet_cons_pos _ _ _ he', mapGet_cons_pos e rest k' he']
      · rw [List.map_cons, if_neg he, mapGet_cons_neg _ _ _ he', mapGet_cons_neg e rest k' he']
        exact ih

theorem mapGet_mapSet_self {α : Type} (m : List (String × α)) (k : String) (v : α) :
    mapGet (mapSet m k v) k = some v := by
  rw [mapSet]
  split
  · next hany => rw [mapGet_replace_self, if_pos hany]
  · next hany =>
    rw [mapGet_append, mapGet_none_of_not_any m k (by rwa [Bool.not_eq_true] at hany),
      mapGet_cons_pos _ _ _ rfl]
    rfl

theorem mapGet_mapSet_ne {α : Type} (m : List (String × α)) (k k' : String) (v : α)
    (h : k' ≠ k) : mapGet (mapSet m k v) k' = mapGet m k' := by
  rw [mapSet]
  split
  · exact mapGet_replace_ne m k k' v h
  · rw [mapGet_append, mapGet_cons_neg _ _ _ (by simpa using Ne.symm h)]
    cases mapGet m k' <;> rfl

theorem foldl_groupStep_get (pk : String) :
    ∀ (items : List UnifiedItem) (m : List (String × List UnifiedItem)),
      mapGet (items.foldl groupStep m) pk =
        match mapGet m pk with
        | some l0 => some (l0 ++ items.filter fun it => it.pathKey = pk)
        | none =>
          if (items.filter fun it => it.pathKey = pk) = [] then none
          else some (items.filter fun it => it.pathKey = pk) := by
  intro items
  induction items with
  | nil =>
    intro m
    cases h : mapGet m pk <;> simp [h]
  | cons it rest ih =>
    intro m
    rw [List.foldl_cons]
    by_cases hpk : it.pathKey = pk
    · have hfc : ((it :: rest).filter fun x => x.pathKey = pk) =
          it :: (rest.filter fun x => x.pathKey = pk) := by
        simp [List.filter_cons, hpk]
      rw [ih (groupStep m it), hfc, groupStep]
      cases hm : mapGet m it.pathKey with
      | some l =>
        rw [hpk] at hm
        rw [hpk, mapGet_mapSet_self, hm]
        simp
      | none =>
        rw [hpk] at hm
        rw [hpk, mapGet_append, hm, mapGet_cons_pos _ _ _ rfl]
        simp
    · have hfc : ((it :: rest).filter fun x => x.pathKey = pk) =
          rest.filter fun x => x.pathKey = pk := by
        simp [List.filter_cons, hpk]
      rw [ih (groupStep m it), hfc, groupStep]
      cases hm : mapGet m it.pathKey with
      | some l => rw [mapGet_mapSet_ne _ _ _ _ (fun h => hpk h.symm)]
      | none =>
        rw [mapGet_append, mapGet_cons_neg _ _ _ (by simpa using hpk)]
        cases mapGet m pk <;> rfl

/-- The grouped list carries, at key `pk`, exactly the items whose
`pathKey` is `pk`, in order. -/
theorem groupByPathKey_get (items : List UnifiedItem) (pk : String) :
    mapGet (groupByPathKey items) pk =
      if (items.filter fun it => it.pathKey = pk) = [] then none
      else some (items.filter fun it => it.pathKey = pk) := by
  rw [groupByPathKey, foldl_groupStep_get pk items []]
  rfl

theorem mapGet_map_snd {α β : Type} (g : α → β) (m : List (String × α)) (k : String) :
    mapGet (m.map fun e => (e.1, g e.2)) k = (mapGet m k).map g := by
  induction m with
  | nil => rfl
  | cons e rest ih =>
    by_cases he : e.1 = k
    · rw [List.map_cons,
        mapGet_cons_pos (e.1, g e.2) (rest.map fun e => (e.1, g e.2)) k he,
        mapGet_cons_pos e rest k he]
      rfl
    · rw [List.map_cons,
        mapGet_cons_neg (e.1, g e.2) (rest.map fun e => (e.1, g e.2)) k he,
        mapGet_cons_neg e rest k he, ih]

/-- Stable insertion in front of a larger head. -/
theorem insertByRegIdx_cons_of_lt (it y : UnifiedItem) (ys : List UnifiedItem)
    (h : it.registrationIndex < y.registrationIndex) :
    insertByRegIdx it (y :: ys) = it :: y :: ys := by
  rw [insertByRegIdx, if_neg (by omega)]

/-- Sorting a list whose registration indices are already strictly
increasing is the identity (so the source's stable sort of lines 498-501
is a no-op on the grouped lists). -/
theorem sortByRegIdx_eq_self :
    ∀ l : List UnifiedItem,
      l.Pairwise (fun a b => a.registrationIndex < b.registrationIndex) →
      sortByRegIdx l = l := by
  intro l
  induction l with
  | nil => intro _; rfl
  | cons x xs ih =>
    intro hp
    have : sortByRegIdx (x :: xs) = insertByRegIdx x (sortByRegIdx xs) := rfl
    rw [this, ih (List.Pairwise.of_cons hp)]
    cases xs with
    | nil => rfl
    | cons y ys =>
      exact insertByRegIdx_cons_of_lt x y ys
        (List.rel_of_pairwise_cons hp (List.mem_cons_self y ys))

theorem buildUnifiedItems_go_regIdx (fMap : List (String × RegisteredFunction))
    (eMap : List (String × CustomEvaluation)) :
    ∀ (nodes : List OrderedNode) (idx : Nat),
      (buildUnifiedItems.go fMap eMap nodes idx).Pairwise
        (fun a b => a.registrationIndex < b.registrationIndex) ∧
      ∀ u ∈ buildUnifiedItems.go fMap eMap nodes idx, idx ≤ u.registrationIndex := by
  intro nodes
  induction nodes with
  | nil => intro idx; exact ⟨List.Pairwise.nil, by intro u hu; cases hu⟩
  | cons n ns ih =>
    intro idx
    rw [buildUnifiedItems.go]
    by_cases hm : n.isMeasure
    · rw [if_pos hm]
      cases mapGet fMap (joinPath n.path) with
      | none => exact ih idx
      | some f =>
        obtain ⟨hp, hb⟩ := ih (idx + 1)
        refine ⟨List.Pairwise.cons ?_ hp, ?_⟩
        · intro u hu
          have := hb u hu
          simpa using Nat.lt_of_lt_of_le (Nat.lt_succ_self idx) this
        · intro u hu
          rcases List.mem_cons.mp hu with h | h
          · subst h; exact le_refl idx
          · exact Nat.le_of_succ_le (hb u h)
    · rw [if_neg hm]
      cases mapGet eMap (joinPath n.path) with
      | none => exact ih idx
      | some e =>
        obtain ⟨hp, hb⟩ := ih (idx + 1)
        refine ⟨List.Pairwise.cons ?_ hp, ?_⟩
        · intro u hu
          have := hb u hu
          simpa using Nat.lt_of_lt_of_le (Nat.lt_succ_self idx) this
        · intro u hu
          rcases List.mem_cons.mp hu with h | h
          · subst h; exact le_refl idx
          · exact Nat.le_of_succ_le (hb u h)

/-- The unified item list has strictly increasing registration indices. -/
theorem unifiedItems_pairwise (config : MeasurementConfig) (hier : TestNode)
    (fs : List RegisteredFunction) (es : List CustomEvaluation) :
    (unifiedItemsOf config hier fs es).Pairwise
      (fun a b => a.registrationIndex < b.registrationIndex) :=
  (buildUnifiedItems_go_regIdx _ _ _ 0).1

/-- The per-key item lists the traversal reads are exactly the filters of
the unified item list (grouping + the no-op sort). -/
theorem itemsBy_get (items : List UnifiedItem)
    (hp : items.Pairwise fun a b => a.registrationIndex < b.registrationIndex)
    (pk : String) :
    (mapGet (itemsByPathKeyOf items) pk).getD [] =
      items.filter fun it => it.pathKey = pk := by
  rw [itemsByPathKeyOf, mapGet_map_snd, groupByPathKey_get]
  by_cases h : (items.filter fun it => it.pathKey = pk) = []
  · rw [if_pos h, h]
    rfl
  · rw [if_neg h]
    exact sortByRegIdx_eq_self _ (hp.sublist (List.filter_sublist items))

theorem allPathKeysOf_go_spec :
    ∀ (items : List UnifiedItem) (seen : List String),
      (∀ pk, pk ∈ allPathKeysOf.go items seen ↔
        (pk ∈ items.map (fun it => it.pathKey) ∧ pk ∉ seen)) ∧
      (allPathKeysOf.go items seen).Nodup := by
  intro items
  induction items with
  | nil =>
    intro seen
    refine ⟨fun pk => ?_, List.Pairwise.nil⟩
    rw [allPathKeysOf.go]
    simp
  | cons it rest ih =>
    intro seen
    rw [allPathKeysOf.go]
    by_cases hs : it.pathKey ∈ seen
    · rw [if_pos hs]
      obtain ⟨hmem, hnd⟩ := ih seen
      refine ⟨fun pk => ?_, hnd⟩
      rw [hmem pk]
      simp only [List.map_cons, List.mem_cons]
      constructor
      · rintro ⟨h1, h2⟩
        exact ⟨Or.inr h1, h2⟩
      · rintro ⟨h1 | h1, h2⟩
        · exact absurd (show pk ∈ seen by rw [h1]; exact hs) h2
        · exact ⟨h1, h2⟩
    · rw [if_neg hs]
      obtain ⟨hmem, hnd⟩ := ih (it.pathKey :: seen)
      constructor
      · intro pk
        rw [List.mem_cons, hmem pk]
        simp only [List.map_cons, List.mem_cons]
        constructor
        · rintro (h | ⟨h1, h2⟩)
          · subst h; exact ⟨Or.inl rfl, hs⟩
          · exact ⟨Or.inr h1, fun hh => h2 (Or.inr hh)⟩
        · rintro ⟨h1 | h1, h2⟩
          · exact Or.inl h1
          · by_cases hpk : pk = it.pathKey
            · exact Or.inl hpk
            · exact Or.inr ⟨h1, fun hh => hh.elim hpk h2⟩
      · refine List.Pairwise.cons ?_ hnd
        intro pk hpk
        have h2 := ((hmem pk).mp hpk).2
        intro heq
        exact h2 (by rw [heq]; exact List.mem_cons_self _ _)

theorem mem_allPathKeysOf (items : List UnifiedItem) (pk : String) :
    pk ∈ allPathKeysOf items ↔ pk ∈ items.map fun it => it.pathKey := by
  rw [allPathKeysOf]
  rw [(allPathKeysOf_go_spec items []).1 pk]
  simp

theorem allPathKeysOf_nodup (items : List UnifiedItem) :
    (allPathKeysOf items).Nodup :=
  (allPathKeysOf_go_spec items []).2

theorem sum_map_if_mem (a : String → Nat) (k0 : String) :
    ∀ (K : List String), K.Nodup → k0 ∈ K →
      (K.map fun k => if k0 = k then a k + 1 else a k).sum = (K.map a).sum + 1 := by
  intro K
  induction K with
  | nil => intro _ h; cases h
  | cons k rest ih =>
    intro hnd hk
    by_cases hk0 : k0 = k
    · have hnot : k0 ∉ rest := by
        intro hmem
        exact (List.pairwise_cons.mp hnd).1 k0 hmem hk0.symm
      have hrest : (rest.map fun k => if k0 = k then a k + 1 else a k) = rest.map a := by
        apply List.map_congr_left
        intro x hx
        rw [if_neg fun h => hnot (show k0 ∈ rest by rw [h]; exact hx)]
      rw [List.map_cons, List.map_cons, if_pos hk0, List.sum_cons, List.sum_cons, hrest]
      omega
    · have hkrest : k0 ∈ rest := (List.mem_cons.mp hk).resolve_left hk0
      rw [List.map_cons, List.map_cons, if_neg hk0, List.sum_cons, List.sum_cons,
        ih (List.Pairwise.of_cons hnd) hkrest]
      omega

/-- A nodup key list covering all items partitions them: the filter
lengths sum to the total length. -/
theorem partition_length :
    ∀ (items : List UnifiedItem) (K : List String), K.Nodup →
      (∀ it ∈ items, it.pathKey ∈ K) →
      (K.map fun k => (items.filter fun it => it.pathKey = k).length).sum =
        items.length := by
  intro items
  induction items with
  | nil =>
    intro K _ _
    simp
  | cons it rest ih =>
    intro K hnd hall
    have hk : it.pathKey ∈ K := hall it (List.mem_cons_self _ _)
    have hstep : (K.map fun k => ((it :: rest).filter fun x => x.pathKey = k).length) =
        K.map fun k => if it.pathKey = k then (rest.filter fun x => x.pathKey = k).length + 1
          else (rest.filter fun x => x.pathKey = k).length := by
      apply List.map_congr_left
      intro k _
      by_cases hik : it.pathKey = k
      · rw [if_pos hik]
        simp [List.filter_cons, hik]
      · rw [if_neg hik]
        simp [List.filter_cons, hik]
    rw [hstep, sum_map_if_mem _ _ K hnd hk,
      ih K hnd (fun x hx => hall x (List.mem_cons_of_mem _ hx))]
    simp

theorem foldl_add_sum (f : String → Nat) :
    ∀ (l : List String) (a : Nat),
      l.foldl (fun acc k => acc + f k) a = a + (l.map f).sum := by
  intro l
  induction l with
  | nil => intro a; simp
  | cons k rest ih =>
    intro a
    rw [List.foldl_cons, ih, List.map_cons, List.sum_cons]
    omega

theorem sum_map_mul_left (S : Nat) (f : String → Nat) :
    ∀ l : List String, (l.map fun k => S * f k).sum = S * (l.map f).sum := by
  intro l
  induction l with
  | nil => simp
  | cons k rest ih =>
    rw [List.map_cons, List.sum_cons, ih, List.map_cons, List.sum_cons, Nat.mul_add]

/-- C6 support: the precomputed total of lines 513-519 equals the number
of included leaves times the sum of the configured data sizes — i.e. the
sum, over all included leaves, of the sum of the data sizes. -/
theorem totalSteps_eq_items_mul (items : List UnifiedItem)
    (hp : items.Pairwise fun a b => a.registrationIndex < b.registrationIndex)
    (S : Nat) :
    totalStepsOf (allPathKeysOf items) (itemsByPathKeyOf items) S =
      items.length * S := by
  rw [totalStepsOf, foldl_add_sum (fun pk => S * ((mapGet (itemsByPathKeyOf items) pk).getD []).length)
    (allPathKeysOf items) 0]
  have h1 : ((allPathKeysOf items).map fun pk =>
      S * ((mapGet (itemsByPathKeyOf items) pk).getD []).length) =
      (allPathKeysOf items).map fun pk =>
        S * (items.filter fun it => it.pathKey = pk).length := by
    apply List.map_congr_left
    intro pk _
    rw [itemsBy_get items hp pk]
  rw [h1, sum_map_mul_left S (fun pk => (items.filter fun it => it.pathKey = pk).length),
    partition_length items (allPathKeysOf items) (allPathKeysOf_nodup items)
      (fun it hit => (mem_allPathKeysOf items it.pathKey).mpr (List.mem_map_of_mem _ hit))]
  rw [Nat.zero_add, Nat.mul_comm]

/-! ## C1: canonical traversal order -/

/-- The observable identity of an emitted event. -/
def eventKey (e : ProgressEvent) : List String × String × Nat := (e.path, e.title, e.dataSize)

/-- The event identity an item is expected to produce at one data size. -/
def itemKey (sz : Nat) (it : UnifiedItem) : List String × String × Nat :=
  (it.itemPath, it.title, sz)

/-- The specified traversal order: group (in order of first appearance)
→ data size (in configured order) → leaf (in registration order). -/
def canonicalKeys (items : List UnifiedItem) (sizes : List Nat) :
    List (List String × String × Nat) :=
  (allPathKeysOf items).flatMap fun pk =>
    sizes.flatMap fun sz => (items.filter fun it => it.pathKey = pk).map (itemKey sz)

/-- The run-local control-flag invariant of a quiet run. -/
def Inv (s : EngState) : Prop :=
  s.stopRequested = false ∧ s.skippedSubGroups = []

theorem runItems_quiet {env : Env} (hq : Quiet env) (ht : TotalEnv env)
    (rc : ResolvedConfig) (T : Nat) (pk : String) (shared : Option (List Datum))
    (sz : Nat) : ∀ (its : List UnifiedItem) (s : EngState), Inv s →
      ∃ s', runItems env rc T pk shared sz its s = (s', true) ∧ Inv s' ∧
        s'.trace.map eventKey = s.trace.map eventKey ++ its.map (itemKey sz) ∧
        s'.currentStep = s.currentStep + its.length * sz := by
  intro its
  induction its with
  | nil => intro s hInv; exact ⟨s, rfl, hInv, by simp, by simp⟩
  | cons it rest ih =>
    intro s hInv
    rw [runItems, if_neg (by simp [hInv.1]), if_neg (by simp [hInv.2])]
    obtain ⟨s1, pl, h1, h2, h3, h4⟩ := runItem_one_event ht rc T it shared sz s
    rw [h1]
    dsimp only
    obtain ⟨hf1, hf2⟩ := h4 hq
    have hInv1 : Inv s1 := ⟨hf1.trans hInv.1, hf2.trans hInv.2⟩
    obtain ⟨s', hrun, hInv', htr, hstep⟩ := ih s1 hInv1
    refine ⟨s', hrun, hInv', ?_, ?_⟩
    · rw [htr, h2]
      simp [eventKey, itemKey]
    · rw [hstep, h3, List.length_cons, Nat.succ_mul]
      omega

theorem sharedDataPhase_spec {env : Env} (hgen : ∀ g n, (env.genSem g n).isSome)
    (g sz n : Nat) (share : Bool) (s : EngState) :
    ∃ s1 o, sharedDataPhase env g sz n share s = (s1, some o) ∧ SamplingOnly s s1 := by
  rw [sharedDataPhase]
  by_cases h : share
  · rw [if_pos h]
    obtain ⟨ds, hds, -⟩ := generateData_total hgen g sz n s
    refine ⟨_, some ds, by rw [hds], ?_⟩
    exact ⟨rfl, rfl, rfl, rfl⟩
  · rw [if_neg h]
    exact ⟨s, none, rfl, samplingOnly_refl s⟩

theorem runSizes_quiet {env : Env} (hq : Quiet env) (ht : TotalEnv env)
    (rc : ResolvedConfig) (T : Nat) (pk : String) (items : List UnifiedItem)
    (share : Bool) (g : Nat) : ∀ (szs : List Nat) (s : EngState), Inv s →
      ∃ s', runSizes env rc T pk items share g szs s = (s', true) ∧ Inv s' ∧
        s'.trace.map eventKey = s.trace.map eventKey ++
          (szs.flatMap fun sz => items.map (itemKey sz)) ∧
        s'.currentStep = s.currentStep + (szs.map fun sz => items.length * sz).sum := by
  intro szs
  induction szs with
  | nil => intro s hInv; exact ⟨s, rfl, hInv, by simp, by simp⟩
  | cons sz rest ih =>
    intro s hInv
    rw [runSizes, if_neg (by simp [hInv.1]), if_neg (by simp [hInv.2])]
    obtain ⟨s1, o, hsp, hso⟩ := sharedDataPhase_spec ht.1 g sz rc.dataUnitsCount share s
    rw [hsp]
    dsimp only
    have hInv1 : Inv s1 := ⟨hso.1.trans hInv.1, hso.2.1.trans hInv.2⟩
    obtain ⟨s2, hri, hInv2, htr2, hstep2⟩ := runItems_quiet hq ht rc T pk o sz items s1 hInv1
    rw [hri]
    dsimp only
    obtain ⟨s', hrun, hInv', htr, hstep⟩ := ih s2 hInv2
    refine ⟨s', hrun, hInv', ?_, ?_⟩
    · rw [htr, htr2, hso.2.2.1, List.flatMap_cons, ← List.append_assoc]
    · rw [hstep, hstep2, hso.2.2.2, List.map_cons, List.sum_cons]
      omega

/-- An auxiliary: flat-mapping every size onto an empty group yields
nothing. -/
theorem flatMap_const_nil {α β : Type} (l : List α) :
    (l.flatMap fun _ => ([] : List β)) = [] := by
  induction l with
  | nil => rfl
  | cons x xs ih => rw [List.flatMap_cons, ih]; rfl

theorem runGroups_quiet {env : Env} (hq : Quiet env) (ht : TotalEnv env)
    (rc : ResolvedConfig) (T : Nat) (itemsBy : List (String × List UnifiedItem))
    (se : Bool) : ∀ (pks : List String) (s : EngState), Inv s →
      ∃ s', runGroups env rc T itemsBy se pks s = (s', true) ∧ Inv s' ∧
        s'.trace.map eventKey = s.trace.map eventKey ++
          (pks.flatMap fun pk => rc.dataUnitSizes.flatMap fun sz =>
            ((mapGet itemsBy pk).getD []).map (itemKey sz)) ∧
        s'.currentStep = s.currentStep +
          (pks.map fun pk => (rc.dataUnitSizes.map fun sz =>
            ((mapGet itemsBy pk).getD []).length * sz).sum).sum := by
  intro pks
  induction pks with
  | nil => intro s hInv; exact ⟨s, rfl, hInv, by simp, by simp⟩
  | cons pk rest ih =>
    intro s hInv
    rw [runGroups, if_neg (by simp [hInv.1])]
    cases hitems : (mapGet itemsBy pk).getD [] with
    | nil =>
      obtain ⟨s', hrun, hInv', htr, hstep⟩ := ih s hInv
      refine ⟨s', hrun, hInv', ?_, ?_⟩
      · rw [htr, List.flatMap_cons, hitems]
        simp [flatMap_const_nil]
      · rw [hstep, List.map_cons, List.sum_cons, hitems]
        simp
    | cons first others =>
      dsimp only
      rw [if_neg (by simp [hInv.2])]
      obtain ⟨s1, hrs, hInv1, htr1, hstep1⟩ := runSizes_quiet hq ht rc T pk
        (first :: others) (se && ((first :: others).all fun it => it.genIdOf = first.genIdOf))
        first.genIdOf rc.dataUnitSizes s hInv
      rw [hrs]
      dsimp only
      obtain ⟨s', hrun, hInv', htr, hstep⟩ := ih s1 hInv1
      refine ⟨s', hrun, hInv', ?_, ?_⟩
      · rw [htr, htr1, List.flatMap_cons, hitems, ← List.append_assoc]
      · rw [hstep, hstep1, List.map_cons, List.sum_cons, hitems]
        omega

theorem canonicalKeys_pairs_nodup (items : List UnifiedItem) (szs : List Nat)
    (hsz : szs.Nodup) (hpaths : (items.map fun it => it.itemPath).Nodup) :
    ((canonicalKeys items szs).map fun k => (k.1, k.2.2)).Nodup := by
  rw [canonicalKeys, List.map_flatMap, List.nodup_flatMap]
  constructor
  · intro pk _
    rw [List.map_flatMap, List.nodup_flatMap]
    constructor
    · intro sz _
      rw [List.map_map]
      have h1 : ((items.filter fun it => it.pathKey = pk).map fun it => it.itemPath).Nodup :=
        hpaths.sublist (List.Sublist.map _ (List.filter_sublist items))
      have h2 : ((items.filter fun it => it.pathKey = pk).map
          ((fun k : List String × String × Nat => (k.1, k.2.2)) ∘ itemKey sz)) =
          ((items.filter fun it => it.pathKey = pk).map fun it => it.itemPath).map
            fun p => (p, sz) := by
        rw [List.map_map]
        rfl
      rw [h2]
      exact h1.map fun a b hab => by simpa using congrArg Prod.fst hab
    · refine List.Pairwise.imp ?_ hsz
      intro sz sz' hne x hx hx'
      obtain ⟨k1, hk1mem, hk1⟩ := List.mem_map.mp hx
      obtain ⟨it1, -, hkk1⟩ := List.mem_map.mp hk1mem
      obtain ⟨k2, hk2mem, hk2⟩ := List.mem_map.mp hx'
      obtain ⟨it2, -, hkk2⟩ := List.mem_map.mp hk2mem
      apply hne
      have e1 : x.2 = sz := by rw [← hk1, ← hkk1]; rfl
      have e2 : x.2 = sz' := by rw [← hk2, ← hkk2]; rfl
      rw [← e1, e2]
  · refine List.Pairwise.imp ?_ (allPathKeysOf_nodup items)
    intro pk pk' hne x hx hx'
    obtain ⟨k1, hk1mem, hk1⟩ := List.mem_map.mp hx
    obtain ⟨sz1, -, hk1mem2⟩ := List.mem_flatMap.mp hk1mem
    obtain ⟨it1, hit1, hkk1⟩ := List.mem_map.mp hk1mem2
    obtain ⟨k2, hk2mem, hk2⟩ := List.mem_map.mp hx'
    obtain ⟨sz2, -, hk2mem2⟩ := List.mem_flatMap.mp hk2mem
    obtain ⟨it2, hit2, hkk2⟩ := List.mem_map.mp hk2mem2
    obtain ⟨hm1, hf1⟩ := List.mem_filter.mp hit1
    obtain ⟨hm2, hf2⟩ := List.mem_filter.mp hit2
    have hpeq : it1.itemPath = it2.itemPath := by
      have e1 : x.1 = it1.itemPath := by rw [← hk1, ← hkk1]; rfl
      have e2 : x.1 = it2.itemPath := by rw [← hk2, ← hkk2]; rfl
      rw [← e1, e2]
    have hiteq : it1 = it2 :=
      List.inj_on_of_nodup_map hpaths hm1 hm2 hpeq
    apply hne
    have k1 : it1.pathKey = pk := by simpa using hf1
    have k2 : it2.pathKey = pk' := by simpa using hf2
    rw [← k1, hiteq, k2]

/-- The fresh run-local state every run starts from (after lines
370-371 cleared the flags). -/
def runInitState : EngState :=
  { stopRequested := false, skippedSubGroups := [], tick := 0, timeIdx := 0,
    memIdx := 0, fnCalls := 0, genLog := [], currentStep := 0, trace := [] }

/-- `runMeasurementsWith` unfolded to its group-loop call. -/
theorem runMeasurementsWith_eq (se : Bool) (env : Env) (config : MeasurementConfig)
    (settings : MeasureSettings) (hier : TestNode) (fs : List RegisteredFunction)
    (es : List CustomEvaluation) (flags : EngineFlags) :
    runMeasurementsWith se env config settings hier fs es flags =
      runGroups env (resolveConfig config settings)
        (totalStepsOf (allPathKeysOf (unifiedItemsOf config hier fs es))
          (itemsByPathKeyOf (unifiedItemsOf config hier fs es))
          (resolveConfig config settings).dataUnitSizes.sum)
        (itemsByPathKeyOf (unifiedItemsOf config hier fs es)) se
        (allPathKeysOf (unifiedItemsOf config hier fs es)) runInitState := rfl

/-- C1: in a run that is neither stopped nor skipped (no external
interference) and in which no registered closure throws, the result
events are emitted in exactly the canonical order: for each owner path
key in order of first appearance in the depth-first declaration-order
traversal, for each configured data size in order, for each leaf of the
group in registration order — one event each; and when the configured
sizes and the registered leaf paths are duplicate-free, no (leaf, data
size) pair is emitted twice. -/
theorem run_trace_canonical_order (env : Env) (config : MeasurementConfig)
    (settings : MeasureSettings) (hier : TestNode) (fs : List RegisteredFunction)
    (es : List CustomEvaluation) (flags : EngineFlags)
    (hq : Quiet env) (ht : TotalEnv env) :
    (runMeasurements env config settings hier fs es flags).1.trace.map eventKey =
      canonicalKeys (unifiedItemsOf config hier fs es)
        (resolveConfig config settings).dataUnitSizes ∧
    ((resolveConfig config settings).dataUnitSizes.Nodup →
      ((unifiedItemsOf config hier fs es).map fun it => it.itemPath).Nodup →
      ((runMeasurements env config settings hier fs es flags).1.trace.map
        fun e => (e.path, e.dataSize)).Nodup) := by
  have hpair := unifiedItems_pairwise config hier fs es
  obtain ⟨s', hrun, -, htr, -⟩ := runGroups_quiet hq ht (resolveConfig config settings)
    (totalStepsOf (allPathKeysOf (unifiedItemsOf config hier fs es))
      (itemsByPathKeyOf (unifiedItemsOf config hier fs es))
      (resolveConfig config settings).dataUnitSizes.sum)
    (itemsByPathKeyOf (unifiedItemsOf config hier fs es)) true
    (allPathKeysOf (unifiedItemsOf config hier fs es)) runInitState ⟨rfl, rfl⟩
  have hre : runMeasurements env config settings hier fs es flags = (s', true) := by
    rw [runMeasurements, runMeasurementsWith_eq]
    exact hrun
  have hfun : (fun pk => (resolveConfig config settings).dataUnitSizes.flatMap fun sz =>
        ((mapGet (itemsByPathKeyOf (unifiedItemsOf config hier fs es)) pk).getD []).map
          (itemKey sz)) =
      fun pk => (resolveConfig config settings).dataUnitSizes.flatMap fun sz =>
        ((unifiedItemsOf config hier fs es).filter fun it => it.pathKey = pk).map
          (itemKey sz) := by
    funext pk
    rw [itemsBy_get (unifiedItemsOf config hier fs es) hpair pk]
  have hmain : (runMeasurements env config settings hier fs es flags).1.trace.map eventKey =
      canonicalKeys (unifiedItemsOf config hier fs es)
        (resolveConfig config settings).dataUnitSizes := by
    rw [hre]
    dsimp only
    rw [htr, canonicalKeys, hfun]
    rfl
  refine ⟨hmain, fun hsz hpaths => ?_⟩
  have hproj : (runMeasurements env config settings hier fs es flags).1.trace.map
      (fun e => (e.path, e.dataSize)) =
      ((runMeasurements env config settings hier fs es flags).1.trace.map eventKey).map
        fun k => (k.1, k.2.2) := by
    rw [List.map_map]
    rfl
  rw [hproj, hmain]
  exact canonicalKeys_pairs_nodup _ _ hsz hpaths

/-- Concrete fixtures for whole-run witnesses: one group with two measure
leaves sharing generator 0. -/
def regB : RegisteredFunction := { title := "b", fnId := 11, genId := 0, path := some ["G", "b"] }

def hierT : TestNode :=
  .describeNode "G" ["G"] [.measureNode "a" ["G", "a"], .measureNode "b" ["G", "b"]]

def funcsT : List RegisteredFunction := [regA, regB]

/-- The Scenario A configuration. -/
def cfgT : MeasurementConfig :=
  { dataUnitSizes := some [10], dataUnitsCount := some 5,
    seriesSize := some 1, seriesCount := some 1, delay := some 0 }

/-- Witness for C1 on the concrete two-leaf run. -/
theorem run_trace_canonical_order_witness :
    ((runMeasurements envT cfgT {} hierT funcsT [] ⟨false, []⟩).1.trace.map eventKey =
      canonicalKeys (unifiedItemsOf cfgT hierT funcsT [])
        (resolveConfig cfgT {}).dataUnitSizes) ∧
    ((resolveConfig cfgT {}).dataUnitSizes.Nodup ∧
      ((unifiedItemsOf cfgT hierT funcsT []).map fun it => it.itemPath).Nodup ∧
      ((runMeasurements envT cfgT {} hierT funcsT [] ⟨false, []⟩).1.trace.map
        fun e => (e.path, e.dataSize)).Nodup) :=
  ⟨(run_trace_canonical_order envT cfgT {} hierT funcsT [] ⟨false, []⟩
      (fun _ => rfl) ⟨fun _ _ => rfl, fun _ _ _ => rfl⟩).1,
   by decide, by decide,
   (run_trace_canonical_order envT cfgT {} hierT funcsT [] ⟨false, []⟩
      (fun _ => rfl) ⟨fun _ _ => rfl, fun _ _ _ => rfl⟩).2 (by decide) (by decide)⟩

/-! ## C6: progress accounting -/

/-- The progress discipline of lines 609-617 and 692-701: starting from
cumulative count `c`, every event's percentage is
`round((cumulative / total) * 100)` where the cumulative count grows by
the event's data size. -/
def progressConsistent (T : Nat) : Nat → List ProgressEvent → Prop
  | _, [] => True
  | c, ev :: rest =>
    ev.progress = round ((((c + ev.dataSize : Nat) : ℚ) / (T : ℚ)) * 100) ∧
      progressConsistent T (c + ev.dataSize) rest

theorem progressConsistent_append (T : Nat) :
    ∀ (Δ₁ Δ₂ : List ProgressEvent) (c : Nat),
      progressConsistent T c Δ₁ →
      progressConsistent T (c + (Δ₁.map fun e => e.dataSize).sum) Δ₂ →
      progressConsistent T c (Δ₁ ++ Δ₂) := by
  intro Δ₁
  induction Δ₁ with
  | nil =>
    intro Δ₂ c _ h₂
    simpa using h₂
  | cons ev rest ih =>
    intro Δ₂ c h₁ h₂
    refine ⟨h₁.1, ?_⟩
    refine ih Δ₂ (c + ev.dataSize) h₁.2 ?_
    have : c + ev.dataSize + (rest.map fun e => e.dataSize).sum =
        c + ((ev :: rest).map fun e => e.dataSize).sum := by
      rw [List.map_cons, List.sum_cons]
      omega
    rw [this]
    exact h₂

/-- One state transition emitted `Δ` well-formed events and counted their
sizes. -/
def StepTraceOK (T : Nat) (s s' : EngState) : Prop :=
  ∃ Δ, s'.trace = s.trace ++ Δ ∧ progressConsistent T s.currentStep Δ ∧
    s'.currentStep = s.currentStep + (Δ.map fun e => e.dataSize).sum

theorem StepTraceOK.refl (T : Nat) (s : EngState) : StepTraceOK T s s :=
  ⟨[], by simp, trivial, by simp⟩

theorem StepTraceOK.trans {T : Nat} {s s' s'' : EngState}
    (h : StepTraceOK T s s') (h' : StepTraceOK T s' s'') : StepTraceOK T s s'' := by
  obtain ⟨Δ₁, ht₁, hc₁, hs₁⟩ := h
  obtain ⟨Δ₂, ht₂, hc₂, hs₂⟩ := h'
  refine ⟨Δ₁ ++ Δ₂, ?_, ?_, ?_⟩
  · rw [ht₂, ht₁, List.append_assoc]
  · exact progressConsistent_append T Δ₁ Δ₂ s.currentStep hc₁ (by rw [← hs₁]; exact hc₂)
  · rw [hs₂, hs₁, List.map_append, List.sum_append]
    omega

theorem StepTraceOK.of_frame {T : Nat} {s s' : EngState}
    (ht : s'.trace = s.trace) (hc : s'.currentStep = s.currentStep) :
    StepTraceOK T s s' :=
  ⟨[], by rw [ht, List.append_nil], trivial, by rw [hc]; simp⟩

theorem emitEvent_stepTraceOK (env : Env) (T : Nat) (p : List String) (t : String)
    (sz : Nat) (pl : ResultPayload) (s : EngState) :
    StepTraceOK T s (emitEvent env T p t sz pl s) := by
  obtain ⟨h1, h2, -⟩ := emitEvent_spec env T p t sz pl s
  refine ⟨[⟨p, t, sz, round ((((s.currentStep + sz : Nat) : ℚ) / (T : ℚ)) * 100), pl⟩],
    h1, ⟨rfl, trivial⟩, ?_⟩
  rw [h2]
  simp

theorem runMeasureItem_stepTraceOK (env : Env) (rc : ResolvedConfig) (T : Nat)
    (title : String) (f : RegisteredFunction) (shared : Option (List Datum))
    (sz : Nat) (s : EngState) :
    StepTraceOK T s (runMeasureItem env rc T title f shared sz s).1 := by
  rw [runMeasureItem]
  have hdp := dataPhase_samplingOnly env f.genId sz rc.dataUnitsCount shared s
  cases hphase : dataPhase env f.genId sz rc.dataUnitsCount shared s with
  | mk s1 o =>
    rw [hphase] at hdp
    have hso1 : StepTraceOK T s s1 := StepTraceOK.of_frame hdp.2.2.1 hdp.2.2.2
    cases o with
    | none => exact hso1
    | some dataArray =>
      dsimp only
      have hsl := runSeriesLoop_trace env rc.seriesSize dataArray f.fnId rc.seriesCount s1 []
      cases hrec : runSeriesLoop env rc.seriesSize dataArray f.fnId rc.seriesCount s1 [] with
      | mk s2 r =>
        obtain ⟨durations, ok⟩ := r
        rw [hrec] at hsl
        have hso2 : StepTraceOK T s s2 :=
          hso1.trans (StepTraceOK.of_frame hsl.1 hsl.2)
        cases ok with
        | false => exact hso2
        | true =>
          dsimp only
          have hmp := runMemoryPhase_samplingOnly env rc.memoryMeasurementsCount dataArray f.fnId s2
          cases hmrec : runMemoryPhase env rc.memoryMeasurementsCount dataArray f.fnId s2 with
          | mk s3 o2 =>
            rw [hmrec] at hmp
            have hso3 : StepTraceOK T s s3 :=
              hso2.trans (StepTraceOK.of_frame hmp.2.2.1 hmp.2.2.2)
            cases o2 with
            | none => exact hso3
            | some mo =>
              exact hso3.trans (emitEvent_stepTraceOK env T (f.path.getD []) title sz _ s3)

theorem runEvaluateItem_stepTraceOK (env : Env) (rc : ResolvedConfig) (T : Nat)
    (title : String) (e : CustomEvaluation) (shared : Option (List Datum))
    (sz : Nat) (s : EngState) :
    StepTraceOK T s (runEvaluateItem env rc T title e shared sz s).1 := by
  rw [runEvaluateItem]
  have hvp := evalValuesPhase_samplingOnly env e.fnId e.genId sz rc.dataUnitsCount shared s
  cases hphase : evalValuesPhase env e.fnId e.genId sz rc.dataUnitsCount shared s with
  | mk s1 o =>
    rw [hphase] at hvp
    have hso1 : StepTraceOK T s s1 := StepTraceOK.of_frame hvp.2.2.1 hvp.2.2.2
    cases o with
    | none => exact hso1
    | some values =>
      exact hso1.trans (emitEvent_stepTraceOK env T (e.path.getD []) title sz _ s1)

theorem runItem_stepTraceOK (env : Env) (rc : ResolvedConfig) (T : Nat)
    (it : UnifiedItem) (shared : Option (List Datum)) (sz : Nat) (s : EngState) :
    StepTraceOK T s (runItem env rc T it shared sz s).1 := by
  cases hpl : it.payload with
  | measureItem f =>
    rw [runItem, hpl]
    exact runMeasureItem_stepTraceOK env rc T it.title f shared sz s
  | evaluateItem e =>
    rw [runItem, hpl]
    exact runEvaluateItem_stepTraceOK env rc T it.title e shared sz s

theorem runItems_stepTraceOK (env : Env) (rc : ResolvedConfig) (T : Nat) (pk : String)
    (shared : Option (List Datum)) (sz : Nat) :
    ∀ (its : List UnifiedItem) (s : EngState),
      StepTraceOK T s (runItems env rc T pk shared sz its s).1 := by
  intro its
  induction its with
  | nil => intro s; exact StepTraceOK.refl T s
  | cons it rest ih =>
    intro s
    rw [runItems]
    by_cases hstop : s.stopRequested
    · rw [if_pos hstop]; exact StepTraceOK.refl T s
    · rw [if_neg hstop]
      by_cases hskip : pk ∈ s.skippedSubGroups
      · rw [if_pos hskip]; exact StepTraceOK.refl T s
      · rw [if_neg hskip]
        have h1 := runItem_stepTraceOK env rc T it shared sz s
        cases hri : runItem env rc T it shared sz s with
        | mk s1 ok =>
          rw [hri] at h1
          cases ok with
          | false => exact h1
          | true => exact h1.trans (ih s1)

theorem sharedDataPhase_samplingOnly (env : Env) (g sz n : Nat) (share : Bool)
    (s : EngState) : SamplingOnly s (sharedDataPhase env g sz n share s).1 := by
  rw [sharedDataPhase]
  by_cases h : share
  · rw [if_pos h]
    have hg := generateData_samplingOnly env g sz n s
    cases hrec : generateData env g sz n s with
    | mk s' o =>
      rw [hrec] at hg
      cases o <;> simpa using hg
  · rw [if_neg h]
    exact samplingOnly_refl s

theorem runSizes_stepTraceOK (env : Env) (rc : ResolvedConfig) (T : Nat) (pk : String)
    (items : List UnifiedItem) (share : Bool) (g : Nat) :
    ∀ (szs : List Nat) (s : EngState),
      StepTraceOK T s (runSizes env rc T pk items share g szs s).1 := by
  intro szs
  induction szs with
  | nil => intro s; exact StepTraceOK.refl T s
  | cons sz rest ih =>
    intro s
    rw [runSizes]
    by_cases hstop : s.stopRequested
    · rw [if_pos hstop]; exact StepTraceOK.refl T s
    · rw [if_neg hstop]
      by_cases hskip : pk ∈ s.skippedSubGroups
      · rw [if_pos hskip]; exact StepTraceOK.refl T s
      · rw [if_neg hskip]
        have hsp := sharedDataPhase_samplingOnly env g sz rc.dataUnitsCount share s
        cases hrec : sharedDataPhase env g sz rc.dataUnitsCount share s with
        | mk s1 o =>
          rw [hrec] at hsp
          have h1 : StepTraceOK T s s1 := StepTraceOK.of_frame hsp.2.2.1 hsp.2.2.2
          cases o with
          | none => exact h1
          | some sharedDataArray =>
            dsimp only
            have h2 := runItems_stepTraceOK env rc T pk sharedDataArray sz items s1
            cases hri : runItems env rc T pk sharedDataArray sz items s1 with
            | mk s2 ok =>
              rw [hri] at h2
              cases ok with
              | false => exact h1.trans h2
              | true => exact (h1.trans h2).trans (ih s2)

theorem runGroups_stepTraceOK (env : Env) (rc : ResolvedConfig) (T : Nat)
    (itemsBy : List (String × List UnifiedItem)) (se : Bool) :
    ∀ (pks : List String) (s : EngState),
      StepTraceOK T s (runGroups env rc T itemsBy se pks s).1 := by
  intro pks
  induction pks with
  | nil => intro s; exact StepTraceOK.refl T s
  | cons pk rest ih =>
    intro s
    rw [runGroups]
    by_cases hstop : s.stopRequested
    · rw [if_pos hstop]; exact StepTraceOK.refl T s
    · rw [if_neg hstop]
      cases hitems : (mapGet itemsBy pk).getD [] with
      | nil => exact ih s
      | cons first others =>
        dsimp only
        by_cases hskip : pk ∈ s.skippedSubGroups
        · rw [if_pos hskip]; exact ih s
        · rw [if_neg hskip]
          have h1 := runSizes_stepTraceOK env rc T pk (first :: others)
            (se && ((first :: others).all fun it => it.genIdOf = first.genIdOf))
            first.genIdOf rc.dataUnitSizes s
          cases hrs : runSizes env rc T pk (first :: others)
              (se && ((first :: others).all fun it => it.genIdOf = first.genIdOf))
              first.genIdOf rc.dataUnitSizes s with
          | mk s1 ok =>
            rw [hrs] at h1
            cases ok with
            | false => exact h1
            | true => exact h1.trans (ih s1)

theorem round_mono_q {x y : ℚ} (h : x ≤ y) : round x ≤ round y := by
  rw [round_eq, round_eq]
  exact Int.floor_le_floor (by linarith)

theorem progress_arg_mono (T : Nat) {a b : Nat} (h : a ≤ b) :
    ((a : ℚ) / (T : ℚ)) * 100 ≤ ((b : ℚ) / (T : ℚ)) * 100 := by
  have hab : (a : ℚ) ≤ b := by exact_mod_cast h
  rcases Nat.eq_zero_or_pos T with hT | hT
  · subst hT
    simp
  · have hTq : (0 : ℚ) < T := by exact_mod_cast hT
    have h1 : (a : ℚ) / T ≤ (b : ℚ) / T := (div_le_div_iff_of_pos_right hTq).mpr hab
    exact mul_le_mul_of_nonneg_right h1 (by norm_num)

/-- The emitted progress values are monotonically non-decreasing. -/
theorem progressConsistent_chain (T : Nat) :
    ∀ (Δ : List ProgressEvent) (c : Nat), progressConsistent T c Δ →
      List.Chain' (· ≤ ·) (Δ.map fun e => e.progress) := by
  intro Δ
  induction Δ with
  | nil => intro c _; exact List.chain'_nil
  | cons ev rest ih =>
    intro c h
    cases rest with
    | nil => simp
    | cons ev2 rest2 =>
      rw [List.map_cons, List.map_cons]
      refine List.Chain'.cons ?_ ?_
      · rw [h.1, h.2.1]
        exact round_mono_q (progress_arg_mono T (by omega))
      · simpa using ih (c + ev.dataSize) h.2

theorem progressConsistent_getLast (T : Nat) :
    ∀ (Δ : List ProgressEvent) (c : Nat), progressConsistent T c Δ → Δ ≠ [] →
      (Δ.map fun e => e.progress).getLast? =
        some (round ((((c + (Δ.map fun e => e.dataSize).sum : Nat) : ℚ) / (T : ℚ)) * 100)) := by
  intro Δ
  induction Δ with
  | nil => intro c _ h; exact absurd rfl h
  | cons ev rest ih =>
    intro c h _
    cases rest with
    | nil =>
      simp only [List.map_cons, List.map_nil, List.sum_cons, List.sum_nil]
      rw [List.getLast?_singleton, h.1]
      have : c + ev.dataSize = c + (ev.dataSize + 0) := by omega
      rw [← this]
    | cons ev2 rest2 =>
      rw [List.map_cons, List.map_cons, List.getLast?_cons_cons]
      have harith : c + ev.dataSize + ((ev2 :: rest2).map fun e => e.dataSize).sum =
          c + ((ev :: ev2 :: rest2).map fun e => e.dataSize).sum := by
        simp only [List.map_cons, List.sum_cons]
        omega
      have ihh := ih (c + ev.dataSize) h.2 (by simp)
      rw [List.map_cons] at ihh
      rw [ihh, harith]

theorem sum_map_mul_left_nat (L : Nat) (szs : List Nat) :
    (szs.map fun sz => L * sz).sum = L * szs.sum := by
  induction szs with
  | nil => simp
  | cons sz rest ih =>
    rw [List.map_cons, List.sum_cons, ih, List.sum_cons, Nat.mul_add]

/-- The per-group work sums of the traversal add up to the precomputed
total of lines 513-519. -/
theorem runWork_eq_totalSteps (pks : List String)
    (itemsBy : List (String × List UnifiedItem)) (szs : List Nat) :
    (pks.map fun pk =>
      (szs.map fun sz => ((mapGet itemsBy pk).getD []).length * sz).sum).sum =
      totalStepsOf pks itemsBy szs.sum := by
  rw [totalStepsOf,
    foldl_add_sum (fun pk => szs.sum * ((mapGet itemsBy pk).getD []).length) pks 0,
    Nat.zero_add]
  congr 1
  apply List.map_congr_left
  intro pk _
  rw [sum_map_mul_left_nat, Nat.mul_comm]

theorem sum_pos_exists (f : String → Nat) :
    ∀ K : List String, 0 < (K.map f).sum → ∃ k ∈ K, 0 < f k := by
  intro K
  induction K with
  | nil => intro h; simp at h
  | cons k rest ih =>
    intro h
    rw [List.map_cons, List.sum_cons] at h
    by_cases hk : 0 < f k
    · exact ⟨k, List.mem_cons_self _ _, hk⟩
    · have : 0 < (rest.map f).sum := by omega
      obtain ⟨k', hk', hpos⟩ := ih this
      exact ⟨k', List.mem_cons_of_mem _ hk', hpos⟩

/-- C6 (amended): in every run the total is the sum, over all included
leaves, of the sum of the configured data sizes; every emitted event's
progress is `round((cumulative / total) * 100)` with the cumulative
counter growing by the event's data size per completed (leaf, data size)
unit; the emitted progress values are monotonically non-decreasing; and
the final event's progress is 100 when the plan completes without being
stopped and without any skip taking effect (no interference), no closure
throws, the total work is positive and at least one event was emitted.
(The original claim, which promised 100 whenever the run completes
without being stopped, fails when a group is skipped mid-run — see the
counterexample.) -/
theorem progress_semantics (env : Env) (config : MeasurementConfig)
    (settings : MeasureSettings) (hier : TestNode) (fs : List RegisteredFunction)
    (es : List CustomEvaluation) (flags : EngineFlags) :
    totalStepsOf (allPathKeysOf (unifiedItemsOf config hier fs es))
        (itemsByPathKeyOf (unifiedItemsOf config hier fs es))
        (resolveConfig config settings).dataUnitSizes.sum =
      (unifiedItemsOf config hier fs es).length *
        (resolveConfig config settings).dataUnitSizes.sum ∧
    progressConsistent
      (totalStepsOf (allPathKeysOf (unifiedItemsOf config hier fs es))
        (itemsByPathKeyOf (unifiedItemsOf config hier fs es))
        (resolveConfig config settings).dataUnitSizes.sum) 0
      (runMeasurements env config settings hier fs es flags).1.trace ∧
    List.Chain' (· ≤ ·)
      ((runMeasurements env config settings hier fs es flags).1.trace.map
        fun e => e.progress) ∧
    (Quiet env → TotalEnv env →
      0 < totalStepsOf (allPathKeysOf (unifiedItemsOf config hier fs es))
        (itemsByPathKeyOf (unifiedItemsOf config hier fs es))
        (resolveConfig config settings).dataUnitSizes.sum →
      (runMeasurements env config settings hier fs es flags).1.trace ≠ [] →
      ((runMeasurements env config settings hier fs es flags).1.trace.map
        fun e => e.progress).getLast? = some 100) := by
  have hstep0 := runGroups_stepTraceOK env (resolveConfig config settings)
    (totalStepsOf (allPathKeysOf (unifiedItemsOf config hier fs es))
      (itemsByPathKeyOf (unifiedItemsOf config hier fs es))
      (resolveConfig config settings).dataUnitSizes.sum)
    (itemsByPathKeyOf (unifiedItemsOf config hier fs es)) true
    (allPathKeysOf (unifiedItemsOf config hier fs es)) runInitState
  obtain ⟨Δ, hΔtr, hΔpc, hΔstep⟩ := hstep0
  have hrunfold : (runMeasurements env config settings hier fs es flags).1 =
      (runGroups env (resolveConfig config settings)
        (totalStepsOf (allPathKeysOf (unifiedItemsOf config hier fs es))
          (itemsByPathKeyOf (unifiedItemsOf config hier fs es))
          (resolveConfig config settings).dataUnitSizes.sum)
        (itemsByPathKeyOf (unifiedItemsOf config hier fs es)) true
        (allPathKeysOf (unifiedItemsOf config hier fs es)) runInitState).1 := by
    rw [runMeasurements, runMeasurementsWith_eq]
  have hΔ : (runMeasurements env config settings hier fs es flags).1.trace = Δ := by
    rw [hrunfold, hΔtr]
    rfl
  refine ⟨totalSteps_eq_items_mul _ (unifiedItems_pairwise config hier fs es) _,
    ?_, ?_, ?_⟩
  · rw [hΔ]
    exact hΔpc
  · rw [hΔ]
    exact progressConsistent_chain _ Δ 0 hΔpc
  · intro hq ht hpos htrne
    obtain ⟨s', hrun, -, -, hstep⟩ := runGroups_quiet hq ht (resolveConfig config settings)
      (totalStepsOf (allPathKeysOf (unifiedItemsOf config hier fs es))
        (itemsByPathKeyOf (unifiedItemsOf config hier fs es))
        (resolveConfig config settings).dataUnitSizes.sum)
      (itemsByPathKeyOf (unifiedItemsOf config hier fs es)) true
      (allPathKeysOf (unifiedItemsOf config hier fs es)) runInitState ⟨rfl, rfl⟩
    have hs' : (runMeasurements env config settings hier fs es flags).1 = s' := by
      rw [hrunfold, hrun]
    -- the final cumulative count is the precomputed total
    have hwork : s'.currentStep =
        totalStepsOf (allPathKeysOf (unifiedItemsOf config hier fs es))
          (itemsByPathKeyOf (unifiedItemsOf config hier fs es))
          (resolveConfig config settings).dataUnitSizes.sum := by
      rw [hstep, ← runWork_eq_totalSteps,
        show runInitState.currentStep = 0 from rfl, Nat.zero_add]
    have hsum : (Δ.map fun e => e.dataSize).sum = s'.currentStep := by
      have h1 : s'.currentStep = runInitState.currentStep +
          (Δ.map fun e => e.dataSize).sum := by
        rw [← hs', hrunfold, hΔstep]
      rw [h1, show runInitState.currentStep = 0 from rfl, Nat.zero_add]
    have hΔne : Δ ≠ [] := by
      rw [hΔ] at htrne
      exact htrne
    rw [hΔ, progressConsistent_getLast _ Δ 0 hΔpc hΔne]
    have harg : (0 + (Δ.map fun e => e.dataSize).sum) =
        totalStepsOf (allPathKeysOf (unifiedItemsOf config hier fs es))
          (itemsByPathKeyOf (unifiedItemsOf config hier fs es))
          (resolveConfig config settings).dataUnitSizes.sum := by
      rw [Nat.zero_add, hsum, hwork]
    rw [harg]
    have hTq : ((totalStepsOf (allPathKeysOf (unifiedItemsOf config hier fs es))
        (itemsByPathKeyOf (unifiedItemsOf config hier fs es))
        (resolveConfig config settings).dataUnitSizes.sum : Nat) : ℚ) ≠ 0 := by
      exact Nat.cast_ne_zero.mpr (Nat.pos_iff_ne_zero.mp hpos)
    rw [div_self hTq, one_mul]
    norm_num

/-- Fixtures for the C6 counterexample: two groups, the observer skips
the second one at the first yield point of the run. -/
def regH : RegisteredFunction := { title := "b", fnId := 12, genId := 1, path := some ["H", "b"] }

def hierGH : TestNode :=
  .describeNode "root" []
    [.describeNode "G" ["G"] [.measureNode "a" ["G", "a"]],
     .describeNode "H" ["H"] [.measureNode "b" ["H", "b"]]]

def cfgGH : MeasurementConfig :=
  { dataUnitSizes := some [1], dataUnitsCount := some 1,
    seriesSize := some 1, seriesCount := some 1, delay := some 0 }

def envSkipH : Env :=
  { genSem := fun _ _ => some 1
    fnSem := fun _ _ _ => some 0
    time := fun _ => 0
    memUsage := fun _ => 0
    actions := fun _ => [.skipPathKey "H"] }

def runSkipH : EngState × Bool :=
  runMeasurements envSkipH cfgGH {} hierGH [regA, regH] [] ⟨false, []⟩

/-- Counterexample to C6 as stated: this run completes normally
(`runSkipH.2 = true`), `stop()` is never requested, yet the final emitted
event carries progress 50, not 100, because the second group was skipped
mid-run. -/
theorem progress_final_not_100_when_skipped :
    runSkipH.2 = true ∧
    runSkipH.1.stopRequested = false ∧
    (runSkipH.1.trace.map fun e => e.progress) = [50] ∧
    ((50 : ℤ) = 100 → False) := by
  refine ⟨by decide, by decide, ?_, by decide⟩
  obtain ⟨Δ, hΔtr, hΔpc, -⟩ := runGroups_stepTraceOK envSkipH (resolveConfig cfgGH {})
    (totalStepsOf (allPathKeysOf (unifiedItemsOf cfgGH hierGH [regA, regH] []))
      (itemsByPathKeyOf (unifiedItemsOf cfgGH hierGH [regA, regH] []))
      (resolveConfig cfgGH {}).dataUnitSizes.sum)
    (itemsByPathKeyOf (unifiedItemsOf cfgGH hierGH [regA, regH] [])) true
    (allPathKeysOf (unifiedItemsOf cfgGH hierGH [regA, regH] [])) runInitState
  have hΔ : runSkipH.1.trace = Δ := by
    rw [runSkipH, runMeasurements, runMeasurementsWith_eq, hΔtr]
    rfl
  -- the ℚ-free shape of the trace, computed by the kernel
  have hshape : runSkipH.1.trace.map (fun e => (e.path, e.dataSize)) =
      [(["G", "a"], 1)] := by decide
  rw [hΔ] at hshape ⊢
  cases Δ with
  | nil => simp at hshape
  | cons ev rest =>
    cases rest with
    | cons ev2 rest2 => simp at hshape
    | nil =>
      simp only [List.map_cons, List.map_nil, List.cons.injEq, and_true] at hshape
      have hds : ev.dataSize = 1 := congrArg Prod.snd hshape
      have hT : totalStepsOf (allPathKeysOf (unifiedItemsOf cfgGH hierGH [regA, regH] []))
          (itemsByPathKeyOf (unifiedItemsOf cfgGH hierGH [regA, regH] []))
          (resolveConfig cfgGH {}).dataUnitSizes.sum = 2 := by decide
      obtain ⟨hp, -⟩ := hΔpc
      rw [hT] at hp
      have hinit : runInitState.currentStep = 0 := rfl
      rw [hinit, hds] at hp
      have hval : round ((((0 + 1 : Nat) : ℚ) / ((2 : Nat) : ℚ)) * 100) = 50 := by
        norm_num [round_eq]
      rw [List.map_cons, List.map_nil, hp, hval]

/-- Witness for C6 (amended) on the concrete two-leaf run. -/
theorem progress_semantics_witness :
    (totalStepsOf (allPathKeysOf (unifiedItemsOf cfgT hierT funcsT []))
        (itemsByPathKeyOf (unifiedItemsOf cfgT hierT funcsT []))
        (resolveConfig cfgT {}).dataUnitSizes.sum =
      (unifiedItemsOf cfgT hierT funcsT []).length *
        (resolveConfig cfgT {}).dataUnitSizes.sum) ∧
    progressConsistent
      (totalStepsOf (allPathKeysOf (unifiedItemsOf cfgT hierT funcsT []))
        (itemsByPathKeyOf (unifiedItemsOf cfgT hierT funcsT []))
        (resolveConfig cfgT {}).dataUnitSizes.sum) 0
      (runMeasurements envT cfgT {} hierT funcsT [] ⟨false, []⟩).1.trace ∧
    List.Chain' (· ≤ ·)
      ((runMeasurements envT cfgT {} hierT funcsT [] ⟨false, []⟩).1.trace.map
        fun e => e.progress) ∧
    ((runMeasurements envT cfgT {} hierT funcsT [] ⟨false, []⟩).1.trace.map
      fun e => e.progress).getLast? = some 100 :=
  ⟨(progress_semantics envT cfgT {} hierT funcsT [] ⟨false, []⟩).1,
   (progress_semantics envT cfgT {} hierT funcsT [] ⟨false, []⟩).2.1,
   (progress_semantics envT cfgT {} hierT funcsT [] ⟨false, []⟩).2.2.1,
   (progress_semantics envT cfgT {} hierT funcsT [] ⟨false, []⟩).2.2.2
     (fun _ => rfl) ⟨fun _ _ => rfl, fun _ _ _ => rfl⟩ (by decide) (by decide)⟩

/-! ## C3: shared data generation -/

theorem foldl_applyAction_genLog (acts : List EngineAction) (s : EngState) :
    (acts.foldl applyAction s).genLog = s.genLog := by
  induction acts generalizing s with
  | nil => rfl
  | cons a rest ih =>
    obtain ⟨-, -, -, -, -, -, hg⟩ := applyAction_fields s a
    exact (ih (applyAction s a)).trans hg

theorem yieldPoint_genLog (env : Env) (s : EngState) :
    (yieldPoint env s).genLog = s.genLog :=
  foldl_applyAction_genLog (env.actions s.tick) s

theorem invokeSeries_genLog (env : Env) (fnId : Nat) (data : List Datum) :
    ∀ (n i : Nat) (s : EngState), (invokeSeries env fnId data i n s).1.genLog = s.genLog := by
  intro n
  induction n with
  | zero => intro i s; rfl
  | succ n ih =>
    intro i s
    rw [invokeSeries]
    cases env.fnSem fnId s.fnCalls (dataAt data i) with
    | none => rfl
    | some v => exact ih (i + 1) _

theorem measureSeriesM_genLog (env : Env) (seriesSize : Nat) (data : List Datum)
    (fnId : Nat) (s : EngState) :
    (measureSeriesM env seriesSize data fnId s).1.genLog = s.genLog := by
  rw [measureSeriesM]
  have h := invokeSeries_genLog env fnId data seriesSize 0 { s with timeIdx := s.timeIdx + 1 }
  cases hrec : invokeSeries env fnId data 0 seriesSize { s with timeIdx := s.timeIdx + 1 } with
  | mk s2 ok =>
    rw [hrec] at h
    cases ok <;> simpa using h

theorem runSeriesLoop_genLog (env : Env) (seriesSize : Nat) (data : List Datum)
    (fnId : Nat) : ∀ (n : Nat) (s : EngState) (acc : List ℚ),
      (runSeriesLoop env seriesSize data fnId n s acc).1.genLog = s.genLog := by
  intro n
  induction n with
  | zero => intro s acc; rfl
  | succ n ih =>
    intro s acc
    rw [runSeriesLoop]
    by_cases hstop : s.stopRequested
    · rw [if_pos hstop]
    · rw [if_neg hstop]
      have h := measureSeriesM_genLog env seriesSize data fnId s
      cases hrec : measureSeriesM env seriesSize data fnId s with
      | mk s1 o =>
        rw [hrec] at h
        cases o with
        | none => exact h
        | some d =>
          rw [ih (yieldPoint env s1) (acc ++ [d]), yieldPoint_genLog]
          exact h

theorem measureMemoryLoop_genLog (env : Env) (data : List Datum) (fnId : Nat) :
    ∀ (n i : Nat) (s : EngState) (acc : List ℚ),
      (measureMemoryLoop env data fnId i n s acc).1.genLog = s.genLog := by
  intro n
  induction n with
  | zero => intro i s acc; rfl
  | succ n ih =>
    intro i s acc
    rw [measureMemoryLoop]
    cases env.fnSem fnId s.fnCalls (dataAt data i) with
    | none => rfl
    | some v => exact ih (i + 1) _ _

theorem runMemoryPhase_genLog (env : Env) (mmc : Option Nat) (data : List Datum)
    (fnId : Nat) (s : EngState) :
    (runMemoryPhase env mmc data fnId s).1.genLog = s.genLog := by
  cases mmc with
  | none => rfl
  | some m =>
    rw [runMemoryPhase]
    by_cases hm : 0 < m
    · rw [if_pos hm]
      have h := measureMemoryLoop_genLog env data fnId m 0 s []
      cases hrec : measureMemoryLoop env data fnId 0 m s [] with
      | mk s1 o =>
        rw [hrec] at h
        cases o <;> exact h
    · rw [if_neg hm]

theorem evalValuesShared_genLog (env : Env) (fnId : Nat) :
    ∀ (ds : List Datum) (s : EngState), (evalValuesShared env fnId ds s).1.genLog = s.genLog := by
  intro ds
  induction ds with
  | nil => intro s; rfl
  | cons d rest ih =>
    intro s
    rw [evalValuesShared]
    cases env.fnSem fnId s.fnCalls (some d) with
    | none => rfl
    | some v =>
      have h := ih { s with fnCalls := s.fnCalls + 1 }
      cases hrec : evalValuesShared env fnId rest { s with fnCalls := s.fnCalls + 1 } with
      | mk s2 o =>
        rw [hrec] at h
        cases o <;> exact h

theorem emitEvent_genLog (env : Env) (T : Nat) (p : List String) (t : String)
    (sz : Nat) (pl : ResultPayload) (s : EngState) :
    (emitEvent env T p t sz pl s).genLog = s.genLog := by
  rw [emitEvent, yieldPoint_genLog]

theorem runMeasureItem_shared_genLog (env : Env) (rc : ResolvedConfig) (T : Nat)
    (title : String) (f : RegisteredFunction) (ds : List Datum) (sz : Nat) (s : EngState) :
    (runMeasureItem env rc T title f (some ds) sz s).1.genLog = s.genLog := by
  rw [runMeasureItem]
  rw [show dataPhase env f.genId sz rc.dataUnitsCount (some ds) s = (s, some ds) from rfl]
  dsimp only
  have hsl := runSeriesLoop_genLog env rc.seriesSize ds f.fnId rc.seriesCount s []
  cases hrec : runSeriesLoop env rc.seriesSize ds f.fnId rc.seriesCount s [] with
  | mk s2 r =>
    obtain ⟨durations, ok⟩ := r
    rw [hrec] at hsl
    cases ok with
    | false => exact hsl
    | true =>
      dsimp only
      have hmp := runMemoryPhase_genLog env rc.memoryMeasurementsCount ds f.fnId s2
      cases hmrec : runMemoryPhase env rc.memoryMeasurementsCount ds f.fnId s2 with
      | mk s3 o2 =>
        rw [hmrec] at hmp
        cases o2 with
        | none => exact hmp.trans hsl
        | some mo =>
          rw [emitEvent_genLog]
          exact hmp.trans hsl

theorem runEvaluateItem_shared_genLog (env : Env) (rc : ResolvedConfig) (T : Nat)
    (title : String) (e : CustomEvaluation) (ds : List Datum) (sz : Nat) (s : EngState) :
    (runEvaluateItem env rc T title e (some ds) sz s).1.genLog = s.genLog := by
  rw [runEvaluateItem]
  have hvp := evalValuesShared_genLog env e.fnId ds s
  rw [show evalValuesPhase env e.fnId e.genId sz rc.dataUnitsCount (some ds) s =
    evalValuesShared env e.fnId ds s from rfl]
  cases hrec : evalValuesShared env e.fnId ds s with
  | mk s1 o =>
    rw [hrec] at hvp
    cases o with
    | none => exact hvp
    | some values =>
      rw [emitEvent_genLog]
      exact hvp

theorem runItem_shared_genLog (env : Env) (rc : ResolvedConfig) (T : Nat)
    (it : UnifiedItem) (ds : List Datum) (sz : Nat) (s : EngState) :
    (runItem env rc T it (some ds) sz s).1.genLog = s.genLog := by
  cases hpl : it.payload with
  | measureItem f =>
    rw [runItem, hpl]
    exact runMeasureItem_shared_genLog env rc T it.title f ds sz s
  | evaluateItem e =>
    rw [runItem, hpl]
    exact runEvaluateItem_shared_genLog env rc T it.title e ds sz s

theorem runItems_shared_genLog (env : Env) (rc : ResolvedConfig) (T : Nat) (pk : String)
    (ds : List Datum) (sz : Nat) : ∀ (its : List UnifiedItem) (s : EngState),
      (runItems env rc T pk (some ds) sz its s).1.genLog = s.genLog := by
  intro its
  induction its with
  | nil => intro s; rfl
  | cons it rest ih =>
    intro s
    rw [runItems]
    by_cases hstop : s.stopRequested
    · rw [if_pos hstop]
    · rw [if_neg hstop]
      by_cases hskip : pk ∈ s.skippedSubGroups
      · rw [if_pos hskip]
      · rw [if_neg hskip]
        have h := runItem_shared_genLog env rc T it ds sz s
        cases hrec : runItem env rc T it (some ds) sz s with
        | mk s1 ok =>
          rw [hrec] at h
          cases ok with
          | false => exact h
          | true => exact (ih s1).trans h

theorem runSizes_share_genLog {env : Env} (hq : Quiet env) (ht : TotalEnv env)
    (rc : ResolvedConfig) (T : Nat) (pk : String) (items : List UnifiedItem) (g : Nat) :
    ∀ (szs : List Nat) (s : EngState), Inv s →
      (runSizes env rc T pk items true g szs s).1.genLog =
        s.genLog ++ szs.flatMap fun sz => List.replicate rc.dataUnitsCount (g, sz) := by
  intro szs
  induction szs with
  | nil => intro s hInv; simp [runSizes]
  | cons sz rest ih =>
    intro s hInv
    rw [runSizes, if_neg (by simp [hInv.1]), if_neg (by simp [hInv.2])]
    obtain ⟨dsl, hds, -⟩ := generateData_total ht.1 g sz rc.dataUnitsCount s
    rw [show sharedDataPhase env g sz rc.dataUnitsCount true s =
        ({ s with genLog := s.genLog ++ List.replicate rc.dataUnitsCount (g, sz) },
          some (some dsl)) from by rw [sharedDataPhase, if_pos rfl, hds]]
    dsimp only
    have hInv1 : Inv { s with genLog := s.genLog ++ List.replicate rc.dataUnitsCount (g, sz) } :=
      ⟨hInv.1, hInv.2⟩
    obtain ⟨s2, hri, hInv2, -, -⟩ := runItems_quiet hq ht rc T pk (some dsl) sz items
      { s with genLog := s.genLog ++ List.replicate rc.dataUnitsCount (g, sz) } hInv1
    rw [hri]
    dsimp only
    have hgl2 : s2.genLog = s.genLog ++ List.replicate rc.dataUnitsCount (g, sz) := by
      have h := runItems_shared_genLog env rc T pk dsl sz items
        { s with genLog := s.genLog ++ List.replicate rc.dataUnitsCount (g, sz) }
      rw [hri] at h
      exact h
    rw [ih s2 hInv2, hgl2, List.flatMap_cons, List.append_assoc]

theorem progressConsistent_determines_progress (T : Nat) :
    ∀ (Δ₁ Δ₂ : List ProgressEvent) (c : Nat),
      progressConsistent T c Δ₁ → progressConsistent T c Δ₂ →
      Δ₁.map (fun e => e.dataSize) = Δ₂.map (fun e => e.dataSize) →
      Δ₁.map (fun e => e.progress) = Δ₂.map (fun e => e.progress) := by
  intro Δ₁
  induction Δ₁ with
  | nil =>
    intro Δ₂ c _ _ hds
    cases Δ₂ with
    | nil => rfl
    | cons y ys => simp at hds
  | cons ev rest ih =>
    intro Δ₂ c h1 h2 hds
    cases Δ₂ with
    | nil => simp at hds
    | cons ev2 rest2 =>
      simp only [List.map_cons, List.cons.injEq] at hds ⊢
      obtain ⟨hd, htl⟩ := hds
      refine ⟨by rw [h1.1, h2.1, hd], ?_⟩
      exact ih rest2 (c + ev.dataSize) h1.2 (by rw [hd]; exact h2.2) htl

theorem map_pair_of_map_eq {α β γ : Type} (f : α → β) (g : α → γ) :
    ∀ (l1 l2 : List α), l1.map f = l2.map f → l1.map g = l2.map g →
      l1.map (fun x => (f x, g x)) = l2.map fun x => (f x, g x) := by
  intro l1
  induction l1 with
  | nil =>
    intro l2 hf _
    cases l2 with
    | nil => rfl
    | cons y ys => simp at hf
  | cons x xs ih =>
    intro l2 hf hg
    cases l2 with
    | nil => simp at hf
    | cons y ys =>
      simp only [List.map_cons, List.cons.injEq] at hf hg ⊢
      exact ⟨by rw [hf.1, hg.1], ih ys hf.2 hg.2⟩

/-- C3: when every included leaf of a group uses the identical data
generator, a (quiet, non-throwing) pass over that group generates its
data exactly `dataUnitsCount` times per configured data size, shared
across the leaves (the generator log grows by exactly those
invocations); disabling the shared-data optimization (forcing per-leaf
generation) never changes the count or shape of emitted results — the
per-event path, title, data size and progress are identical — nor the
success of the run; and in Scenario A (two measure leaves sharing
generator 0, sizes `[10]`, `dataUnitsCount = 5`, one series of one
repetition) the run emits exactly 2 result events, both with data size
10, with the generator invoked exactly 5 times — 10 times once sharing
is disabled. -/
theorem shared_generator_semantics :
    (∀ (env : Env) (rc : ResolvedConfig) (T : Nat) (pk : String)
        (items : List UnifiedItem) (g : Nat) (szs : List Nat) (s : EngState),
      Quiet env → TotalEnv env → Inv s →
      (runSizes env rc T pk items true g szs s).1.genLog =
        s.genLog ++ szs.flatMap fun sz => List.replicate rc.dataUnitsCount (g, sz)) ∧
    (∀ (env : Env) (config : MeasurementConfig) (settings : MeasureSettings)
        (hier : TestNode) (fs : List RegisteredFunction) (es : List CustomEvaluation)
        (flags : EngineFlags), Quiet env → TotalEnv env →
      ((runMeasurements env config settings hier fs es flags).1.trace.map
          fun e => (eventKey e, e.progress)) =
        ((runMeasurementsNoShare env config settings hier fs es flags).1.trace.map
          fun e => (eventKey e, e.progress)) ∧
      (runMeasurements env config settings hier fs es flags).2 = true ∧
      (runMeasurementsNoShare env config settings hier fs es flags).2 = true) ∧
    ((runMeasurements envT cfgT {} hierT funcsT [] ⟨false, []⟩).1.trace.map
        (fun e => (e.path, e.dataSize)) = [(["G", "a"], 10), (["G", "b"], 10)] ∧
      (runMeasurements envT cfgT {} hierT funcsT [] ⟨false, []⟩).1.genLog =
        List.replicate 5 (0, 10) ∧
      (runMeasurementsNoShare envT cfgT {} hierT funcsT [] ⟨false, []⟩).1.genLog =
        List.replicate 10 (0, 10)) := by
  refine ⟨fun env rc T pk items g szs s hq ht hInv =>
    runSizes_share_genLog hq ht rc T pk items g szs s hInv,
    ?_, by decide, by decide, by decide⟩
  intro env config settings hier fs es flags hq ht
  obtain ⟨s1, hrun1, -, htr1, -⟩ := runGroups_quiet hq ht (resolveConfig config settings)
    (totalStepsOf (allPathKeysOf (unifiedItemsOf config hier fs es))
      (itemsByPathKeyOf (unifiedItemsOf config hier fs es))
      (resolveConfig config settings).dataUnitSizes.sum)
    (itemsByPathKeyOf (unifiedItemsOf config hier fs es)) true
    (allPathKeysOf (unifiedItemsOf config hier fs es)) runInitState ⟨rfl, rfl⟩
  obtain ⟨s2, hrun2, -, htr2, -⟩ := runGroups_quiet hq ht (resolveConfig config settings)
    (totalStepsOf (allPathKeysOf (unifiedItemsOf config hier fs es))
      (itemsByPathKeyOf (unifiedItemsOf config hier fs es))
      (resolveConfig config settings).dataUnitSizes.sum)
    (itemsByPathKeyOf (unifiedItemsOf config hier fs es)) false
    (allPathKeysOf (unifiedItemsOf config hier fs es)) runInitState ⟨rfl, rfl⟩
  have he1 : runMeasurements env config settings hier fs es flags = (s1, true) := by
    rw [runMeasurements, runMeasurementsWith_eq]
    exact hrun1
  have he2 : runMeasurementsNoShare env config settings hier fs es flags = (s2, true) := by
    rw [runMeasurementsNoShare, runMeasurementsWith_eq]
    exact hrun2
  have hkey : s1.trace.map eventKey = s2.trace.map eventKey := by
    rw [htr1, htr2]
  have hds : s1.trace.map (fun e => e.dataSize) = s2.trace.map fun e => e.dataSize := by
    have h1 : s1.trace.map (fun e => e.dataSize) =
        (s1.trace.map eventKey).map fun k => k.2.2 := by
      rw [List.map_map]; rfl
    have h2 : s2.trace.map (fun e => e.dataSize) =
        (s2.trace.map eventKey).map fun k => k.2.2 := by
      rw [List.map_map]; rfl
    rw [h1, h2, hkey]
  have hpc1 : progressConsistent
      (totalStepsOf (allPathKeysOf (unifiedItemsOf config hier fs es))
        (itemsByPathKeyOf (unifiedItemsOf config hier fs es))
        (resolveConfig config settings).dataUnitSizes.sum) 0 s1.trace := by
    obtain ⟨Δ, hΔtr, hΔpc, -⟩ := runGroups_stepTraceOK env (resolveConfig config settings)
      (totalStepsOf (allPathKeysOf (unifiedItemsOf config hier fs es))
        (itemsByPathKeyOf (unifiedItemsOf config hier fs es))
        (resolveConfig config settings).dataUnitSizes.sum)
      (itemsByPathKeyOf (unifiedItemsOf config hier fs es)) true
      (allPathKeysOf (unifiedItemsOf config hier fs es)) runInitState
    rw [hrun1] at hΔtr
    have : s1.trace = Δ := by rw [hΔtr]; rfl
    rw [this]
    exact hΔpc
  have hpc2 : progressConsistent
      (totalStepsOf (allPathKeysOf (unifiedItemsOf config hier fs es))
        (itemsByPathKeyOf (unifiedItemsOf config hier fs es))
        (resolveConfig config settings).dataUnitSizes.sum) 0 s2.trace := by
    obtain ⟨Δ, hΔtr, hΔpc, -⟩ := runGroups_stepTraceOK env (resolveConfig config settings)
      (totalStepsOf (allPathKeysOf (unifiedItemsOf config hier fs es))
        (itemsByPathKeyOf (unifiedItemsOf config hier fs es))
        (resolveConfig config settings).dataUnitSizes.sum)
      (itemsByPathKeyOf (unifiedItemsOf config hier fs es)) false
      (allPathKeysOf (unifiedItemsOf config hier fs es)) runInitState
    rw [hrun2] at hΔtr
    have : s2.trace = Δ := by rw [hΔtr]; rfl
    rw [this]
    exact hΔpc
  have hprog : s1.trace.map (fun e => e.progress) = s2.trace.map fun e => e.progress :=
    progressConsistent_determines_progress _ s1.trace s2.trace 0 hpc1 hpc2 hds
  refine ⟨?_, by rw [he1], by rw [he2]⟩
  rw [he1, he2]
  exact map_pair_of_map_eq eventKey (fun e => e.progress) s1.trace s2.trace hkey hprog

/-- Witness for C3: the universal parts applied to the Scenario A run. -/
theorem shared_generator_semantics_witness :
    ((runSizes envT rcT 1 "G" [itemA] true 0 [10] s0).1.genLog =
      s0.genLog ++ [10].flatMap fun sz => List.replicate rcT.dataUnitsCount (0, sz)) ∧
    (((runMeasurements envT cfgT {} hierT funcsT [] ⟨false, []⟩).1.trace.map
        fun e => (eventKey e, e.progress)) =
      ((runMeasurementsNoShare envT cfgT {} hierT funcsT [] ⟨false, []⟩).1.trace.map
        fun e => (eventKey e, e.progress)) ∧
      (runMeasurements envT cfgT {} hierT funcsT [] ⟨false, []⟩).2 = true ∧
      (runMeasurementsNoShare envT cfgT {} hierT funcsT [] ⟨false, []⟩).2 = true) :=
  ⟨shared_generator_semantics.1 envT rcT 1 "G" [itemA] 0 [10] s0
      (fun _ => rfl) ⟨fun _ _ => rfl, fun _ _ _ => rfl⟩ ⟨rfl, rfl⟩,
   shared_generator_semantics.2.1 envT cfgT {} hierT funcsT [] ⟨false, []⟩
      (fun _ => rfl) ⟨fun _ _ => rfl, fun _ _ _ => rfl⟩⟩

end Perfme
